import Mathlib

/-!
Verification of the UAGO-3C repository against its specification.

The development shallowly embeds the Python sources:
  - `src/src/invariant_measurer.py`  (branching, symmetry, repetition, box counting)
  - `src/src/symbolic_regressor.py`  (formula generation)
  - `src/src/jsx_visualizer.py`      (visualization-type selection)
  - `src/src/uago_core.py`           (the run loop of `UAGO3CEngine`)
  - `src/main.py`                    (CLI entry point)

Machine floats are modelled as rationals (scores, thresholds) or reals
(quantities produced through `log`/`sqrt`).  External library calls
(`skimage.skeletonize`, `cv2.warpAffine`, PySR fitting, Selenium) are
modelled as explicit function parameters, since their code is not part of
the repository; calls whose documented mathematical definition the code
relies on (`cv2.matchTemplate` with `TM_CCOEFF_NORMED`, `np.polyfit` of
degree 1) are embedded by that documented formula.
-/

/-- A raster image: a list of rows of integer pixel values.  Binarized
images produced by `cv2.threshold(..., THRESH_BINARY + THRESH_OTSU)` hold
the values 0 and 255. -/
abbrev Img : Type := List (List ℤ)

/-- Pixel access with out-of-range reads defaulting to 0 (background). -/
def Img.pix (img : Img) (i j : ℕ) : ℤ := (img.getD i []).getD j 0

/-- Number of rows, `shape[0]` of the numpy array. -/
def Img.height (img : Img) : ℕ := img.length

/-- Number of columns, `shape[1]` of the (rectangular) numpy array. -/
def Img.width (img : Img) : ℕ := (img.headD []).length

/-- Total number of pixels, `binary_img.size` in numpy. -/
def Img.size (img : Img) : ℕ := img.height * img.width

/-- Sum of all pixel values, `np.sum(binary_img)`.  For a 0/255 binary
image this is 255 times the number of foreground pixels. -/
def Img.pixelSum (img : Img) : ℤ := (img.map List.sum).sum

/-- Number of foreground (nonzero) pixels of the image. -/
def Img.foregroundCount (img : Img) : ℕ :=
  (img.map (fun r => (r.filter (fun v => v ≠ 0)).length)).sum

/-- Fraction of pixels that are foreground (nonzero). -/
def Img.foregroundFraction (img : Img) : ℚ :=
  (img.foregroundCount : ℚ) / (img.size : ℚ)

/-- The density value computed by `_analyze_branching`:
`np.sum(binary_img) / binary_img.size`.  Note that for a 0/255 image this
equals 255 times the foreground fraction. -/
def Img.density (img : Img) : ℚ := (img.pixelSum : ℚ) / (img.size : ℚ)

/-- Embedding of `_analyze_branching` (invariant_measurer.py, lines
189-213).  The skeletonization / junction detection part calls the
external `skimage.skeletonize` and `scipy.ndimage.convolve`; it is
modelled by the parameter `junction`, where `none` stands for an exception
raised inside the `try` block (caught, returning empty lists), `some false`
for "no junction pixels found" and `some true` for "junction pixels
found".  All other control flow is taken from the source. -/
def analyzeBranching (junction : Img → Option Bool) (img : Img) :
    List ℚ × List ℚ :=
  if img.density > 3/10 ∨ img.density < 1/100 then ([], [])
  else
    match junction img with
    | none => ([], [])
    | some false => ([], [])
    | some true => ([36], [7/10])

/-- Sum of absolute pixel differences `np.sum(np.abs(a - rotated))`,
taken over the shape of `a` (the rotated image has the same shape). -/
def absDiffSum (a b : Img) : ℤ :=
  ∑ i ∈ Finset.range a.height, ∑ j ∈ Finset.range a.width,
    |a.pix i j - b.pix i j|

/-- One symmetry score of `_detect_symmetry`:
`1.0 - diff / (binary_img.size * 255.0)`. -/
def symmetryScore (img rotated : Img) : ℚ :=
  1 - (absDiffSum img rotated : ℚ) / ((img.size : ℚ) * 255)

/-- The candidate angle list of `_detect_symmetry`. -/
def symmetryAngles : List ℕ := [0, 30, 45, 60, 90, 120, 180]

/-- Helper for `np.argmax`: first index of the maximum value.  `idx` is
the index of the next element, `bi`/`bv` the best index and value so
far. -/
def argmaxAux : List ℚ → ℕ → ℕ → ℚ → ℕ
  | [], _, bi, _ => bi
  | q :: rest, idx, bi, bv =>
      if bv < q then argmaxAux rest (idx + 1) idx q
      else argmaxAux rest (idx + 1) bi bv

/-- First index of the maximum of a rational list (`np.argmax`);
0 for the empty list. -/
def argmaxQ : List ℚ → ℕ
  | [] => 0
  | q :: rest => argmaxAux rest 1 0 q

/-- The score list of `_detect_symmetry`: 1.0 for angle 0, otherwise the
rotation score.  The rotation (`cv2.getRotationMatrix2D` /
`cv2.warpAffine`, external) is the parameter `rot`. -/
def symmetryScores (rot : Img → ℕ → Img) (img : Img) : List ℚ :=
  symmetryAngles.map (fun a => if a = 0 then 1 else symmetryScore img (rot img a))

/-- Index `best_idx = np.argmax(scores[1:]) + 1` of `_detect_symmetry`. -/
def symmetryBestIdx (rot : Img → ℕ → Img) (img : Img) : ℕ :=
  argmaxQ (symmetryScores rot img).tail + 1

/-- The angle-to-token mapping of the high-score case of
`_detect_symmetry`; the final two branches reproduce the source's
`f"C{int(360 / angle)}" if angle != 0 else "C1"` fallback. -/
def symmetryAngleToken (angle : ℕ) : String :=
  if angle = 180 then "C2"
  else if angle = 120 then "C3"
  else if angle = 90 then "C4"
  else if angle = 60 then "C6"
  else if angle = 45 then "C8"
  else if angle = 30 then "C12"
  else if angle ≠ 0 then "C" ++ toString (360 / angle)
  else "C1"

/-- Embedding of `_detect_symmetry` (invariant_measurer.py, lines
142-178): the decision chain over the rotation scores. -/
def detectSymmetry (rot : Img → ℕ → Img) (img : Img) : String :=
  if (symmetryScores rot img).getD (symmetryBestIdx rot img) 0 > 85/100 then
    symmetryAngleToken (symmetryAngles.getD (symmetryBestIdx rot img) 0)
  else if (symmetryScores rot img).getD 3 0 > 8/10 ∧
      (symmetryScores rot img).getD 5 0 > 8/10 then "C3"
  else if (symmetryScores rot img).getD 4 0 > 8/10 then "C4"
  else "C1"

/-- The fixed symmetry vocabulary of the specification (section 3). -/
def symmetryVocabulary : List String :=
  ["C1", "C2", "C3", "C4", "C5", "C6", "C8", "C12",
   "D1", "D2", "D3", "D4", "D6", "C∞", "Oh", "Ih", "Td"]

/-- The invariants dictionary produced by `measure_invariants`
(invariant_measurer.py, lines 71-78): all six keys are always present. -/
structure Invariants where
  dimensionality : ℚ
  scales : List ℚ
  connectivity : ℤ
  repetition_score : ℚ
  symmetry_approx : String
  branching : List ℚ × List ℚ
deriving DecidableEq

/-- Python's substring test `pat in s` on strings. -/
def strContainsSub (pat s : String) : Bool :=
  (List.range (s.length + 1)).any
    (fun i => (s.data.drop i).take pat.data.length == pat.data)

/-- Embedding of `_determine_visualization_type` (jsx_visualizer.py,
lines 69-98): the priority-ordered decision chain over the invariants. -/
def determineVisualizationType (inv : Invariants) : String :=
  if 155/100 ≤ inv.dimensionality ∧ inv.dimensionality ≤ 160/100 ∧
      inv.symmetry_approx = "C3" then "sierpinski"
  else if 124/100 ≤ inv.dimensionality ∧ inv.dimensionality ≤ 128/100 ∧
      (strContainsSub "D" inv.symmetry_approx ∨ inv.symmetry_approx = "C6" ∨
        inv.symmetry_approx = "C12") then "koch"
  else if 195/100 ≤ inv.dimensionality ∧ inv.dimensionality ≤ 205/100 ∧
      inv.repetition_score > 85/100 then "julia"
  else if 195/100 ≤ inv.dimensionality ∧ inv.dimensionality ≤ 205/100 ∧
      inv.branching.1 = [90] then "dragon"
  else if 180/100 ≤ inv.dimensionality ∧ inv.dimensionality ≤ 190/100 ∧
      (strContainsSub "C5" inv.symmetry_approx ∨
        strContainsSub "C∞" inv.symmetry_approx) then "tree"
  else if 270/100 ≤ inv.dimensionality ∧ inv.dimensionality ≤ 275/100 ∧
      inv.symmetry_approx = "Oh" then "menger"
  else if 14/10 ≤ inv.dimensionality ∧ inv.dimensionality ≤ 2 ∧
      inv.repetition_score < 7/10 then "automaton"
  else if 1 ≤ inv.dimensionality ∧ inv.dimensionality ≤ 12/10 ∧
      inv.symmetry_approx = "C∞" then "spiral"
  else if 16/10 ≤ inv.dimensionality ∧ inv.dimensionality ≤ 2 ∧
      inv.connectivity = 1 then "algebraic"
  else if inv.dimensionality < 1 then "cantor"
  else "generic"

/-- A 10 x 10 binary image whose first row is foreground: its foreground
fraction is 1/10, inside the specified (0.01, 0.3) interval, while the
density value the code computes is 25.5. -/
def imgTenth : Img :=
  List.replicate 10 (255 : ℤ) :: List.replicate 9 (List.replicate 10 (0 : ℤ))

/-- Symmetry-order map of `_generate_with_local_regression`
(symbolic_regressor.py, lines 133-141): `symmetry_map.get(symmetry, 1)`. -/
def symmetryOrder (sym : String) : ℚ :=
  if sym = "C1" then 1 else if sym = "C2" then 2 else if sym = "C3" then 3
  else if sym = "C4" then 4 else if sym = "C6" then 6
  else if sym = "D1" then 1 else if sym = "D2" then 2 else if sym = "D3" then 3
  else if sym = "D4" then 4 else if sym = "D6" then 6
  else if sym = "Oh" then 8 else if sym = "Ih" then 12 else if sym = "Td" then 12
  else 1

/-- Mean of a rational list, `np.mean`. -/
def meanQ (l : List ℚ) : ℚ := l.sum / l.length

/-- Feature vector built by `_generate_with_local_regression` (lines
115-141): the three scalar invariants (all present in a measurer result),
the mean branch angle when the angle list is non-empty, and the symmetry
order. -/
def regressionFeatures (inv : Invariants) : List ℚ :=
  [inv.dimensionality, (inv.connectivity : ℚ), inv.repetition_score] ++
    (if inv.branching.1 ≠ [] then [meanQ inv.branching.1] else []) ++
    [symmetryOrder inv.symmetry_approx]

/-- Feature names accompanying `regressionFeatures`. -/
def regressionFeatureNames (inv : Invariants) : List String :=
  ["dimensionality", "connectivity", "repetition_score"] ++
    (if inv.branching.1 ≠ [] then ["mean_branch_angle"] else []) ++
    ["symmetry_order"]

/-- Random design matrix of `_generate_with_local_regression` (lines
149-165): 100 rows, one `np.random.uniform(0.1, 2.0)` draw per feature,
drawn in sequence from the global numpy random state, modelled as the
abstract draw stream `rand`. -/
def regressionX (rand : ℕ → ℚ) (nf : ℕ) : List (List ℚ) :=
  (List.range 100).map (fun t => (List.range nf).map (fun i => rand (t * nf + i)))

/-- Target of one row: `sum over i of x_i / (i + 1)` (lines 156-160). -/
def rowTarget (row : List ℚ) : ℚ :=
  (List.zipWith (fun v i => (1 / ((i : ℚ) + 1)) * v) row
    (List.range row.length)).sum

/-- Target vector with the additive Gaussian perturbation of line 169
(`y += np.random.normal(0, 0.1 * np.std(y))`); the scaled normal draws
are modelled as the abstract stream `noise`. -/
def regressionY (rand noise : ℕ → ℚ) (nf : ℕ) : List ℚ :=
  List.zipWith (fun row t => rowTarget row + noise t)
    (regressionX rand nf) (List.range 100)

/-- Rendering of a rational to three decimal places, modelling the
`f"{dim:.3f}"` format of the fallback formula strings. -/
def formatThree (q : ℚ) : String :=
  let n : ℤ := round (q * 1000)
  let sign := if n < 0 then "-" else ""
  let a := n.natAbs
  let frac := a % 1000
  let fracStr :=
    if frac < 10 then "00" ++ toString frac
    else if frac < 100 then "0" ++ toString frac
    else toString frac
  sign ++ toString (a / 1000) ++ "." ++ fracStr

/-- The dimensionality-based fallback formula of lines 219-221 and
223-227: `f"x^{dim:.3f} + y^{dim:.3f}"`. -/
def fallbackFormula (inv : Invariants) : String :=
  "x^" ++ formatThree inv.dimensionality ++ " + y^" ++ formatThree inv.dimensionality

/-- Replacement of every non-overlapping occurrence of `pat` by `rep`,
scanning left to right, on character lists.  The fuel argument makes the
recursion structural; fuel equal to the length of the scanned list always
suffices, since each step consumes at least one character. -/
def replaceCharsFuel (pat rep : List Char) : ℕ → List Char → List Char
  | _, [] => []
  | 0, s => s
  | fuel + 1, c :: rest =>
      if pat ≠ [] ∧ (c :: rest).take pat.length = pat then
        rep ++ replaceCharsFuel pat rep fuel ((c :: rest).drop pat.length)
      else c :: replaceCharsFuel pat rep fuel rest

/-- Python's `str.replace(pat, rep)` for a non-empty pattern. -/
def pyReplace (s pat rep : String) : String :=
  ⟨replaceCharsFuel pat.data rep.data s.data.length s.data⟩

/-- Renaming step of lines 198-200: replace each `x{i}` with the i-th
feature name. -/
def renameFeatures (names : List String) (formula : String) : String :=
  names.enum.foldl (fun f p => pyReplace f ("x" ++ toString p.1) p.2) formula

/-- Embedding of `_generate_with_local_regression` (symbolic_regressor.py,
lines 105-227).  The PySR fit together with its sympy conversion is the
external regressor, modelled by the parameter `fit` (`.error` when the
fitting raises); the global numpy random state is modelled by the streams
`rand` and `noise`.  A renamed formula shorter than 5 characters raises
(line 203-204) and is caught by the inner `except`, which returns the
dimensionality fallback, as does any fitting failure. -/
def generateWithLocalRegression
    (fit : List (List ℚ) → List ℚ → Except String String)
    (rand noise : ℕ → ℚ) (inv : Invariants) : String :=
  match fit (regressionX rand (regressionFeatures inv).length)
      (regressionY rand noise (regressionFeatures inv).length) with
  | .error _ => fallbackFormula inv
  | .ok eq =>
      if (renameFeatures (regressionFeatureNames inv) eq).length < 5 then
        fallbackFormula inv
      else renameFeatures (regressionFeatureNames inv) eq

/-- Embedding of `generate_formula_from_invariants` (symbolic_regressor.py,
lines 13-38): the Mistral path is attempted only when `use_mistral` is
true and an API key is provided (falling back to local regression if the
request raises); otherwise local regression runs directly. -/
def generateFormulaFromInvariants
    (useMistral : Bool) (apiKey : Option String)
    (mistral : Except String String)
    (fit : List (List ℚ) → List ℚ → Except String String)
    (rand noise : ℕ → ℚ) (inv : Invariants) : String :=
  if useMistral ∧ apiKey.isSome then
    match mistral with
    | .ok f => f
    | .error _ => generateWithLocalRegression fit rand noise inv
  else generateWithLocalRegression fit rand noise inv

/-- A probe regressor distinguishing two design matrices by their first
entry; both possible outputs have length at least 5. -/
def fitProbe : List (List ℚ) → List ℚ → Except String String :=
  fun X _ => .ok (if (X.headD []).headD 0 = 1 then "aaaaa" else "bbbbb")

/-- A draw stream that always yields 1 (one possible numpy random
state). -/
def randOnes : ℕ → ℚ := fun _ => 1

/-- A draw stream that always yields 2 (another numpy random state). -/
def randTwos : ℕ → ℚ := fun _ => 2

/-- The zero noise stream. -/
def noiseZero : ℕ → ℚ := fun _ => 0

/-- A concrete invariants value of the shape the measurer produces. -/
def invProbe : Invariants :=
  { dimensionality := 3/2, scales := [], connectivity := 1,
    repetition_score := 1/2, symmetry_approx := "C1", branching := ([], []) }

/-- Names defined at module level in `src/src/symbolic_regressor.py`. -/
def symbolicRegressorModuleNames : List String :=
  ["generate_formula_from_invariants", "_generate_with_mistral",
   "_generate_with_local_regression"]

/-- The names that `src/src/uago_core.py` line 19 imports from the
regressor module. -/
def uagoCoreRegressorImports : List String :=
  ["generate_formula_from_invariants", "_generate_mmss_explanation"]

/-- Whether the import of `uago_core` succeeds: every imported name must
be defined in the regressor module; otherwise Python raises
`ImportError` at import time. -/
def uagoCoreImportOk : Bool :=
  uagoCoreRegressorImports.all (fun n => decide (n ∈ symbolicRegressorModuleNames))

/-- Number of parameters of `UAGO3CEngine.__init__` beyond `self`
(uago_core.py, line 28: `def __init__(self)`). -/
def engineInitParamCount : ℕ := 0

/-- Number of arguments `main.py` line 32 passes to the constructor:
`UAGO3CEngine(config_path)`. -/
def engineCallArgCount : ℕ := 1

/-- Python call semantics for the constructor: an argument count
different from the parameter count raises `TypeError`. -/
def engineConstruction : Except String Unit :=
  if engineCallArgCount = engineInitParamCount then .ok ()
  else .error "TypeError"

/-- Exit code of the `main.py` process (main.py, lines 1-65): the module
first imports `UAGO3CEngine` from `uago_core` (an uncaught `ImportError`
terminates the interpreter with exit code 1); `main()` exits 1 on a wrong
argument count or a missing input file; the `try` block constructs the
engine, runs it and writes the reports, with a blanket `except` that
exits 1; falling off the end of `main` exits 0.  The engine run and the
report writes are abstracted by `runAndReport`, `.error` when any of them
raises. -/
def mainExitCode (argc : ℕ) (fileExists : Bool)
    (runAndReport : Except String Unit) : ℕ :=
  if ¬uagoCoreImportOk then 1
  else if argc ≠ 2 then 1
  else if ¬fileExists then 1
  else
    match engineConstruction with
    | .error _ => 1
    | .ok _ =>
        match runAndReport with
        | .error _ => 1
        | .ok _ => 0

/-- Events observable at the engine's external collaborators: a call of
the renderer (`generate_jsx_visualization`) or of the screenshot capture
(`_capture_screenshot`). -/
inductive EngineEvent where
  | render : EngineEvent
  | capture : EngineEvent
deriving DecidableEq

/-- Engine configuration values read inside `run`: `max_cycles`
(default 1), `similarity_threshold` (default 0.95) and the visualization
output directory. -/
structure EngineConfig where
  maxCycles : ℤ
  simThreshold : ℚ
  outputDir : String

/-- One history record of `run` (uago_core.py, lines 126-131 append the
Discovery record with an explanation and no visualization; lines 202-208
append the loop records with a visualization path and a similarity
score). -/
structure FormulaRecord where
  attempt : ℤ
  formula : String
  invariants : Invariants
  visualization : Option String
  similarity_score : Option ℚ
  explanation : Option String

/-- The result dictionary of `run` (uago_core.py, lines 80-85), with the
keys that `run` may add. -/
structure RunResult where
  status : String
  formula : Option String
  attempts : ℤ
  history : List FormulaRecord
  error : Option String
  mmss_explanation : Option String
  final_visualization : Option String

/-- The initial result value of `run` (lines 80-85). -/
def initialResult : RunResult :=
  { status := "failure", formula := none, attempts := 0, history := [],
    error := none, mmss_explanation := none, final_visualization := none }

/-- The message of the exception raised by both renderer callsites.
Python quotes the argument name; the quotes are elided here. -/
def renderTypeErrorMsg : String :=
  "TypeError: generate_jsx_visualization() got an unexpected keyword argument mmss_explanation"

/-- The renderer call exactly as `run` makes it (uago_core.py, lines
141-148 and 168-175): both callsites pass the keyword arguments
`mmss_explanation` and `config` to `generate_jsx_visualization`, whose
signature (jsx_visualizer.py, line 53) is
`(formula, invariants, width=500, height=500)` with no further keyword
parameters, so every call raises `TypeError` before any template work.
The call is therefore a fixed raising step, not a free collaborator. -/
def renderCall : Except String String := .error renderTypeErrorMsg

/-- Behavior of the fallible steps of one `run` call.  Each component
models one call inside the `try` block; `.error` carries the message of a
raised exception.  `explain` is modelled from the spec: the Explanation
Oracle `_generate_mmss_explanation` is imported by `uago_core` line 19
but missing from `src/src/symbolic_regressor.py`; per spec section 6 it
returns a string and never raises.  The renderer has no component: its
two callsites are the fixed raising step `renderCall`, determined by the
in-src `generate_jsx_visualization` signature.  The file writes
`writeFinal`/`writeHtml` sit after a render in the source and are
therefore unreachable.  The screenshot capture has no component because
`_capture_screenshot` (lines 231-238) catches its own exceptions and
never raises; a capture whose output is unusable surfaces as a failing
`measureLoop`. -/
structure RunEnv where
  loadConfig : Except String EngineConfig
  setupDirs : Except String Unit
  imageLoad : Except String Unit
  measure1 : Except String Invariants
  genFormula1 : Except String String
  explain : String
  writeFinal : Except String Unit
  writeHtml : ℕ → Except String Unit
  measureLoop : ℕ → Except String Invariants
  genFormulaLoop : ℕ → Except String String

/-- Splitting of a character list on whitespace runs, dropping empty
words: Python's `s.split()`.  `acc` holds the reversed current word. -/
def splitWSAux : List Char → List Char → List (List Char)
  | [], acc => if acc = [] then [] else [acc.reverse]
  | c :: rest, acc =>
      if c = ' ' ∨ c = '\t' ∨ c = '\n' ∨ c = '\r' then
        if acc = [] then splitWSAux rest []
        else acc.reverse :: splitWSAux rest []
      else splitWSAux rest (c :: acc)

/-- Joining of words with single spaces: Python's `' '.join(words)`. -/
def joinSpace : List (List Char) → List Char
  | [] => []
  | [w] => w
  | w :: ws => w ++ ' ' :: joinSpace ws

/-- Whitespace normalization of `_calculate_formula_similarity`
(uago_core.py, lines 240-249): `' '.join(s.split())`. -/
def normalizeWS (s : String) : String := ⟨joinSpace (splitWSAux s.data [])⟩

/-- Formula similarity (lines 240-249): 1.0 on exact match of the
normalized strings, else 0.0. -/
def formulaSimilarity (f1 f2 : String) : ℚ :=
  if normalizeWS f1 = normalizeWS f2 then 1 else 0

/-- Loop state of `run`: the result dictionary under mutation, the
collaborator event log, and the current formula / invariants pair. -/
structure LoopSt where
  res : RunResult
  events : List EngineEvent
  curF : String
  curInv : Invariants

/-- Path of the attempt visualization file (lines 178-181). -/
def attemptHtmlPath (cfg : EngineConfig) (a : ℕ) : String :=
  cfg.outputDir ++ "/attempt_" ++ toString a ++ ".html"

/-- The history record appended by one loop iteration (lines 202-208). -/
def loopRecord (cfg : EngineConfig) (a : ℕ) (newF : String)
    (newInv : Invariants) (sim : ℚ) : FormulaRecord :=
  { attempt := (a : ℤ), formula := newF, invariants := newInv,
    visualization := some (attemptHtmlPath cfg a),
    similarity_score := some sim, explanation := none }

/-- State after one full loop iteration appended its record. -/
def appendLoopRecord (cfg : EngineConfig) (a : ℕ) (newF : String)
    (newInv : Invariants) (st : LoopSt) : LoopSt :=
  { res := { st.res with
      history := st.res.history ++
        [loopRecord cfg a newF newInv (formulaSimilarity st.curF newF)] },
    events := st.events ++ [.render, .capture],
    curF := newF, curInv := newInv }

/-- Success fields set on convergence (lines 211-215). -/
def markSuccess (a : ℕ) (newF : String) (st : LoopSt) : LoopSt :=
  { st with res := { st.res with
      status := "success", formula := some newF, attempts := (a : ℤ) } }

/-- The Embodiment/Validation loop of `run` (uago_core.py, lines
165-219), iterating over `range(2, max_cycles + 1)`.  `.inl` is a normal
loop exit (convergence break or exhaustion); `.inr` carries the message
of a raised exception together with the partially mutated state, exactly
as the Python `result` dict is left when a step raises. -/
def runLoop (env : RunEnv) (cfg : EngineConfig) :
    List ℕ → LoopSt → LoopSt ⊕ (String × LoopSt)
  | [], st => .inl st
  | a :: rest, st =>
      match renderCall with
      | .error e => .inr (e, { st with events := st.events ++ [.render] })
      | .ok _ =>
          match env.writeHtml a with
          | .error e => .inr (e, { st with events := st.events ++ [.render] })
          | .ok _ =>
              match env.measureLoop a with
              | .error e =>
                  .inr (e, { st with events := st.events ++ [.render, .capture] })
              | .ok newInv =>
                  match env.genFormulaLoop a with
                  | .error e =>
                      .inr (e, { st with events := st.events ++ [.render, .capture] })
                  | .ok newF =>
                      if formulaSimilarity st.curF newF ≥ cfg.simThreshold then
                        .inl (markSuccess a newF
                          (appendLoopRecord cfg a newF newInv st))
                      else
                        runLoop env cfg rest
                          (appendLoopRecord cfg a newF newInv st)

/-- The result after a successful Discovery step (uago_core.py, lines
105-131): the explanation is stored and the first history record
appended. -/
def discoveryResult (env : RunEnv) (inv1 : Invariants) (f1 : String) :
    RunResult :=
  { initialResult with
    mmss_explanation := some env.explain,
    history := [{ attempt := 1, formula := f1, invariants := inv1,
                  visualization := none, similarity_score := none,
                  explanation := some env.explain }] }

/-- The loop state at entry of the Embodiment/Validation loop. -/
def initLoopSt (env : RunEnv) (inv1 : Invariants) (f1 : String) : LoopSt :=
  { res := discoveryResult env inv1 f1, events := [],
    curF := f1, curInv := inv1 }

/-- The `max_cycles == 1` branch of `run` (uago_core.py, lines 138-160):
the final-visualization render is attempted; since `renderCall` always
raises, the following file write and success marking (lines 149-160,
kept in the model line by line) are dead code. -/
def singleCyclePhase (env : RunEnv) (cfg : EngineConfig)
    (inv1 : Invariants) (f1 : String) :
    Except (String × RunResult × List EngineEvent)
      (RunResult × List EngineEvent) :=
  match renderCall with
  | .error e => .error (e, discoveryResult env inv1 f1, [.render])
  | .ok _ =>
  match env.writeFinal with
  | .error e => .error (e, discoveryResult env inv1 f1, [.render])
  | .ok _ =>
      .ok ({ discoveryResult env inv1 f1 with
        final_visualization :=
          some (cfg.outputDir ++ "/final_visualization.html"),
        status := "success", formula := some f1, attempts := 1 }, [.render])

/-- The multi-cycle branch of `run` (lines 162-223): the loop over
attempts `2 .. max_cycles`, followed by
`if result['status'] != 'success': result['attempts'] = max_cycles`. -/
def runLoopPhase (env : RunEnv) (cfg : EngineConfig)
    (inv1 : Invariants) (f1 : String) :
    Except (String × RunResult × List EngineEvent)
      (RunResult × List EngineEvent) :=
  match runLoop env cfg (List.range' 2 (cfg.maxCycles - 1).toNat)
      (initLoopSt env inv1 f1) with
  | .inr (e, st) => .error (e, st.res, st.events)
  | .inl st =>
      if st.res.status ≠ "success" then
        .ok ({ st.res with attempts := cfg.maxCycles }, st.events)
      else .ok (st.res, st.events)

/-- The body of the `try` block of `run` (uago_core.py, lines 87-223):
`.ok` with the final result and event log, or `.error` with the raised
message and the partially mutated state. -/
def runBody (env : RunEnv) :
    Except (String × RunResult × List EngineEvent)
      (RunResult × List EngineEvent) :=
  match env.loadConfig with
  | .error e => .error (e, initialResult, [])
  | .ok cfg =>
  match env.setupDirs with
  | .error e => .error (e, initialResult, [])
  | .ok _ =>
  match env.imageLoad with
  | .error e => .error (e, initialResult, [])
  | .ok _ =>
  match env.measure1 with
  | .error e => .error (e, initialResult, [])
  | .ok inv1 =>
  match env.genFormula1 with
  | .error e => .error (e, initialResult, [])
  | .ok f1 =>
  if cfg.maxCycles = 1 then singleCyclePhase env cfg inv1 f1
  else runLoopPhase env cfg inv1 f1

/-- Embedding of `UAGO3CEngine.run` (uago_core.py, lines 70-229): the
`try` body wrapped by the top-level `except`, which records the message
in `result['error']` and returns the partially built result. -/
def runModel (env : RunEnv) : RunResult × List EngineEvent :=
  match runBody env with
  | .ok (r, ev) => (r, ev)
  | .error (e, r, ev) => ({ r with error := some e }, ev)

/-- A configuration with `max_cycles = 1`. -/
def cfgSingle : EngineConfig :=
  { maxCycles := 1, simThreshold := 95/100, outputDir := "output/visualizations" }

/-- A configuration with `max_cycles = 0`. -/
def cfgZero : EngineConfig :=
  { maxCycles := 0, simThreshold := 1, outputDir := "out" }

/-- A benign collaborator behavior with `max_cycles = 1` in the
configuration: every collaborator step succeeds (the renderer is not a
collaborator component: it is the fixed raising `renderCall`). -/
def envSingle : RunEnv :=
  { loadConfig := .ok cfgSingle,
    setupDirs := .ok (), imageLoad := .ok (),
    measure1 := .ok invProbe, genFormula1 := .ok "F1",
    explain := "expl", writeFinal := .ok (),
    writeHtml := fun _ => .ok (),
    measureLoop := fun _ => .ok invProbe,
    genFormulaLoop := fun _ => .ok "F1" }

/-- The same benign behavior but with `max_cycles = 0` configured. -/
def envZero : RunEnv := { envSingle with loadConfig := .ok cfgZero }

/-- A behavior whose very first step, the configuration load, raises. -/
def envFailing : RunEnv := { envSingle with loadConfig := .error "boom" }

/-- The template of `_detect_repetition`: the top-left quarter
`binary_img[:h // 4, :w // 4]`. -/
def repetitionTemplate (img : Img) : Img :=
  (img.take (img.height / 4)).map (fun r => r.take (img.width / 4))

/-- Sum of the pixel values of the `th x tw` window at offset (y, x). -/
def windowSum (img : Img) (th tw y x : ℕ) : ℤ :=
  ∑ i ∈ Finset.range th, ∑ j ∈ Finset.range tw, img.pix (y + i) (x + j)

/-- Sum of the squared pixel values of the window at offset (y, x). -/
def windowSqSum (img : Img) (th tw y x : ℕ) : ℤ :=
  ∑ i ∈ Finset.range th, ∑ j ∈ Finset.range tw, (img.pix (y + i) (x + j)) ^ 2

/-- Sum of the products of template pixels with the window pixels at
offset (y, x). -/
def windowProdSum (img tpl : Img) (th tw y x : ℕ) : ℤ :=
  ∑ i ∈ Finset.range th, ∑ j ∈ Finset.range tw,
    tpl.pix i j * img.pix (y + i) (x + j)

/-- Numerator of the mean-centered correlation, scaled by `th * tw`:
`n * sum(T I) - sum(T) * sum(I)` equals `n^2` times the covariance of
template and window. -/
def ccNum (img tpl : Img) (th tw y x : ℕ) : ℤ :=
  (th * tw : ℕ) * windowProdSum img tpl th tw y x -
    windowSum tpl th tw 0 0 * windowSum img th tw y x

/-- Centered second moment of the template, scaled by `th * tw`. -/
def tplVar (tpl : Img) (th tw : ℕ) : ℤ :=
  (th * tw : ℕ) * windowSqSum tpl th tw 0 0 - (windowSum tpl th tw 0 0) ^ 2

/-- Centered second moment of the window at (y, x), scaled by `th * tw`. -/
def winVar (img : Img) (th tw y x : ℕ) : ℤ :=
  (th * tw : ℕ) * windowSqSum img th tw y x - (windowSum img th tw y x) ^ 2

/-- One value of `cv2.matchTemplate(img, tpl, TM_CCOEFF_NORMED)` at
offset (y, x), following OpenCV's documented formula
`R = sum(T' I') / sqrt(sum(T'^2) * sum(I'^2))` with mean-centered
template and window; written in the equivalent form scaled by `th * tw`
in both numerator and denominator. -/
noncomputable def ccoeffNormed (img tpl : Img) (th tw y x : ℕ) : ℝ :=
  (ccNum img tpl th tw y x : ℝ) /
    Real.sqrt ((tplVar tpl th tw : ℝ) * (winVar img th tw y x : ℝ))

/-- Embedding of `_detect_repetition` (invariant_measurer.py, lines
124-139): 0.0 for images smaller than 20 in either dimension, otherwise
`np.mean` of the TM_CCOEFF_NORMED correlation surface of the image
against its top-left-quarter template; the surface has shape
`(h - h//4 + 1) x (w - w//4 + 1)`.  (The `template.size == 0` and
`res.size == 0` guards of the source are unreachable once
`h, w >= 20`.) -/
noncomputable def detectRepetition (img : Img) : ℝ :=
  if img.height < 20 ∨ img.width < 20 then 0
  else
    (∑ y ∈ Finset.range (img.height - img.height / 4 + 1),
      ∑ x ∈ Finset.range (img.width - img.width / 4 + 1),
        ccoeffNormed img (repetitionTemplate img)
          (img.height / 4) (img.width / 4) y x) /
    (((img.height - img.height / 4 + 1) * (img.width - img.width / 4 + 1) : ℕ) : ℝ)

/-- A 20 x 20 binary 0/255 image of vertical period-4 stripes: white
columns at j = 0, 4, 8, 12, 16. -/
def stripesImg : Img :=
  List.replicate 20 ((List.range 20).map (fun j => if j % 4 = 0 then (255 : ℤ) else 0))

/-- One block test of `_box_counting_dimension`
(`np.any(binary_img[i:i + size, j:j + size])`): does the `s x s` block
with top-left corner (bi, bj) contain a foreground pixel?  The Python
slice reads only inside the array, hence the bounds. -/
def blockAny (img : Img) (s bi bj : ℕ) : Prop :=
  ∃ p ∈ Finset.range s ×ˢ Finset.range s,
    bi + p.1 < img.height ∧ bj + p.2 < img.width ∧
      img.pix (bi + p.1) (bj + p.2) ≠ 0

instance (img : Img) (s bi bj : ℕ) : Decidable (blockAny img s bi bj) := by
  unfold blockAny
  infer_instance

/-- Number of non-empty boxes at size `s`: top-left corners run over
`range(0, H, size) x range(0, W, size)`. -/
def boxCount (img : Img) (s : ℕ) : ℕ :=
  ((Finset.range img.height ×ˢ Finset.range img.width).filter
    (fun b => b.1 % s = 0 ∧ b.2 % s = 0 ∧ blockAny img s b.1 b.2)).card

/-- Whether the H x W rectangle contains any foreground pixel. -/
def fgPresent (img : Img) : Prop :=
  ∃ p ∈ Finset.range img.height ×ˢ Finset.range img.width, img.pix p.1 p.2 ≠ 0

/-- The size/count collection loop of `_box_counting_dimension` (lines
85-97): sizes double from 1 while `size <= min(H, W)` and fewer than 6
pairs are collected; sizes with zero count are skipped. -/
def collectPairs (img : Img) (minDim k : ℕ) (acc : List (ℕ × ℕ)) :
    List (ℕ × ℕ) :=
  if h : 2 ^ k ≤ minDim ∧ acc.length < 6 then
    collectPairs img minDim (k + 1)
      (if 0 < boxCount img (2 ^ k) then
        acc ++ [(2 ^ k, boxCount img (2 ^ k))] else acc)
  else acc
termination_by minDim - k
decreasing_by
  have hk : k < 2 ^ k := Nat.lt_two_pow k
  omega

/-- Least-squares slope of `np.polyfit(xs, ys, 1)` in closed form:
`(n sum(x y) - sum(x) sum(y)) / (n sum(x^2) - sum(x)^2)`. -/
noncomputable def lsSlope (xs ys : List ℝ) : ℝ :=
  ((xs.length : ℝ) * (List.zipWith (fun a b => a * b) xs ys).sum -
      xs.sum * ys.sum) /
    ((xs.length : ℝ) * (xs.map (fun v => v ^ 2)).sum - xs.sum ^ 2)

/-- Embedding of `_box_counting_dimension` (invariant_measurer.py, lines
81-105): collect (size, count) pairs over doubling sizes, return 2.0 with
fewer than two pairs, otherwise minus the least-squares slope of
`log count` against `log size`. -/
noncomputable def boxCountingDimension (img : Img) : ℝ :=
  if (collectPairs img (min img.height img.width) 0 []).length < 2 then 2
  else
    -(lsSlope
      ((collectPairs img (min img.height img.width) 0 []).map
        (fun p => Real.log (p.1 : ℝ)))
      ((collectPairs img (min img.height img.width) 0 []).map
        (fun p => Real.log (p.2 : ℝ))))

/-- The set of occupied box indices at size `s`: index (u, v) stands for
the corner (u s, v s).  `blockAny` at the corner already forces
`u s < H` and `v s < W`, so ranging the indices over the full pixel
rectangle loses nothing. -/
def boxIdxSet (img : Img) (s : ℕ) : Finset (ℕ × ℕ) :=
  (Finset.range img.height ×ˢ Finset.range img.width).filter
    (fun u => blockAny img s (u.1 * s) (u.2 * s))

/-- A rotation stub used as a concrete collaborator: every rotation of
any image is the all-white 1 x 1 image. -/
def rotAllWhite : Img → ℕ → Img := fun _ _ => [[255]]

/-- A concrete 1 x 1 all-black image. -/
def imgOnePixel : Img := [[0]]

/-! ### Theorems -/

theorem argmaxAux_lt (l : List ℚ) : ∀ (idx bi : ℕ) (bv : ℚ), bi < idx →
    argmaxAux l idx bi bv < idx + l.length := by
  induction l with
  | nil => intro idx bi bv h; simpa using h
  | cons q rest ih =>
      intro idx bi bv h
      simp only [argmaxAux, List.length_cons]
      split
      · have := ih (idx + 1) idx q (Nat.lt_succ_self idx)
        omega
      · have := ih (idx + 1) bi bv (Nat.lt_succ_of_lt h)
        omega

theorem argmaxQ_lt (l : List ℚ) (h : l ≠ []) : argmaxQ l < l.length := by
  cases l with
  | nil => simp at h
  | cons q rest =>
      simp only [argmaxQ, List.length_cons]
      have := argmaxAux_lt rest 1 0 q (by omega)
      omega

theorem getD_succ_eq_tail (l : List ℚ) (k : ℕ) :
    l.getD (k + 1) 0 = l.tail.getD k 0 := by
  cases l <;> simp [List.getD]

theorem symmetryAngleToken_mem (i : ℕ) (h : i < 7) :
    symmetryAngleToken (symmetryAngles.getD i 0) ∈ symmetryVocabulary := by
  interval_cases i <;> decide

theorem symmetryAngleToken_ne_empty (i : ℕ) (h : i < 7) :
    symmetryAngleToken (symmetryAngles.getD i 0) ≠ "" := by
  interval_cases i <;> decide

/-- Claim C8: for every binary image (and any behavior of the external
rotation routine), the symmetry token returned by `_detect_symmetry` is a
non-empty member of the fixed symmetry vocabulary, and it is "C1" when no
symmetry test passes its threshold (no rotation score exceeds 0.85, the
60-and-120-degree pair does not both exceed 0.8, and the 90-degree score
does not exceed 0.8). -/
theorem detectSymmetry_vocabulary_default (rot : Img → ℕ → Img) (img : Img) :
    (detectSymmetry rot img ∈ symmetryVocabulary ∧ detectSymmetry rot img ≠ "") ∧
    ((∀ s ∈ (symmetryScores rot img).tail, s ≤ 85/100) →
      ¬((symmetryScores rot img).getD 3 0 > 8/10 ∧
        (symmetryScores rot img).getD 5 0 > 8/10) →
      ¬((symmetryScores rot img).getD 4 0 > 8/10) →
      detectSymmetry rot img = "C1") := by
  have hlen : (symmetryScores rot img).tail.length = 6 := by
    simp [symmetryScores, symmetryAngles]
  have hne : (symmetryScores rot img).tail ≠ [] := by
    intro hcon
    rw [hcon] at hlen
    simp at hlen
  have hk : argmaxQ (symmetryScores rot img).tail < 6 := by
    have := argmaxQ_lt _ hne
    omega
  have hidx : symmetryBestIdx rot img < 7 := by
    unfold symmetryBestIdx
    omega
  constructor
  · unfold detectSymmetry
    split
    · exact ⟨symmetryAngleToken_mem _ hidx, symmetryAngleToken_ne_empty _ hidx⟩
    · split
      · exact ⟨by decide, by decide⟩
      · split
        · exact ⟨by decide, by decide⟩
        · exact ⟨by decide, by decide⟩
  · intro h1 h2 h3
    have hA : ¬((symmetryScores rot img).getD (symmetryBestIdx rot img) 0 > 85/100) := by
      have hmem : (symmetryScores rot img).getD (symmetryBestIdx rot img) 0 ∈
          (symmetryScores rot img).tail := by
        unfold symmetryBestIdx
        rw [getD_succ_eq_tail]
        have hlt : argmaxQ (symmetryScores rot img).tail <
            (symmetryScores rot img).tail.length := by omega
        rw [List.getD_eq_getElem _ _ hlt]
        exact List.getElem_mem _
      exact not_lt.mpr (h1 _ hmem)
    unfold detectSymmetry
    rw [if_neg hA, if_neg h2, if_neg h3]

/-- Witness for C8 at a concrete rotation stub and image where no
threshold passes: the result is "C1". -/
theorem detectSymmetry_vocabulary_default_witness :
    detectSymmetry rotAllWhite imgOnePixel = "C1" := by
  have hscores : symmetryScores rotAllWhite imgOnePixel = [1, 0, 0, 0, 0, 0, 0] := by
    norm_num [symmetryScores, symmetryAngles, symmetryScore, absDiffSum,
      Img.size, Img.height, Img.width, Img.pix, rotAllWhite, imgOnePixel,
      Finset.sum_range_one, List.getD]
  refine (detectSymmetry_vocabulary_default rotAllWhite imgOnePixel).2 ?_ ?_ ?_
  · rw [hscores]
    intro s hs
    simp at hs
    rw [hs]
    norm_num
  · rw [hscores]
    norm_num [List.getD]
  · rw [hscores]
    norm_num [List.getD]

/-- Claim C7 (code bug): the gate of `_analyze_branching` compares
`np.sum(binary_img) / binary_img.size`, which for a 0/255 binary image is
255 times the foreground fraction, against the thresholds 0.01 and 0.3.
At the concrete image `imgTenth`, whose foreground fraction 0.1 lies
strictly inside (0.01, 0.3), the computed density is 25.5, the gate
rejects, and branching is never attempted: the result is empty whatever
the skeleton analysis would return. -/
theorem branching_gate_uses_unnormalized_density :
    Img.foregroundFraction imgTenth = 1/10 ∧
    (1/100 < Img.foregroundFraction imgTenth ∧
      Img.foregroundFraction imgTenth < 3/10) ∧
    Img.density imgTenth = 255/10 ∧
    (∀ junction, analyzeBranching junction imgTenth = ([], [])) := by
  have hc : Img.foregroundCount imgTenth = 10 := by decide
  have hs : Img.size imgTenth = 100 := by decide
  have hsum : Img.pixelSum imgTenth = 2550 := by decide
  have hfrac : Img.foregroundFraction imgTenth = 1/10 := by
    unfold Img.foregroundFraction
    rw [hc, hs]
    norm_num
  have hden : Img.density imgTenth = 255/10 := by
    unfold Img.density
    rw [hsum, hs]
    norm_num
  refine ⟨hfrac, ⟨by rw [hfrac]; norm_num, by rw [hfrac]; norm_num⟩, hden, ?_⟩
  intro junction
  have hgate : Img.density imgTenth > 3/10 ∨ Img.density imgTenth < 1/100 :=
    Or.inl (by rw [hden]; norm_num)
  unfold analyzeBranching
  rw [if_pos hgate]

theorem dragon_requires_ninety (inv : Invariants) :
    determineVisualizationType inv = "dragon" → inv.branching.1 = [90] := by
  unfold determineVisualizationType
  intro h
  repeat' split at h
  all_goals first
    | exact absurd h (by decide)
    | (rename_i hc; exact hc.2.2)

/-- Claim C10: whatever the external skeleton analysis does, the
branching result of the measurer is either empty or exactly
([36.0], [0.7]); in particular its angle list is never [90.0], and the
dragon-curve branch of `_determine_visualization_type` is never selected
for invariants whose branching field the measurer produced. -/
theorem measurer_branching_never_dragon (junction : Img → Option Bool) (img : Img)
    (dim : ℚ) (scales : List ℚ) (conn : ℤ) (rep : ℚ) (sym : String) :
    (analyzeBranching junction img = ([], []) ∨
      analyzeBranching junction img = ([36], [7/10])) ∧
    (analyzeBranching junction img).1 ≠ [90] ∧
    determineVisualizationType
      ⟨dim, scales, conn, rep, sym, analyzeBranching junction img⟩ ≠ "dragon" := by
  have hcases : analyzeBranching junction img = ([], []) ∨
      analyzeBranching junction img = ([36], [7/10]) := by
    unfold analyzeBranching
    split
    · exact Or.inl rfl
    · cases hj : junction img with
      | none => exact Or.inl rfl
      | some b => cases b with
        | false => exact Or.inl rfl
        | true => exact Or.inr rfl
  refine ⟨hcases, ?_, ?_⟩
  · rcases hcases with h | h <;> rw [h]
    · simp
    · intro hcon
      simp only [List.cons.injEq] at hcon
      exact absurd hcon.1 (by norm_num)
  · intro hd
    have h90 := dragon_requires_ninety _ hd
    rcases hcases with h | h <;> rw [h] at h90 <;> norm_num at h90

/-- Claim C1 (code bug): with `use_mistral = false`,
`generate_formula_from_invariants` is not a deterministic function of the
invariants dictionary: the local regression consumes draws from the
global numpy random state, so two calls at the same invariants under two
random states (here the constant draw streams 1 and 2) hand different
design matrices to the regressor and can return different formula
strings. -/
theorem generateFormula_depends_on_random_state :
    generateFormulaFromInvariants false none (.ok "") fitProbe randOnes noiseZero
        invProbe ≠
      generateFormulaFromInvariants false none (.ok "") fitProbe randTwos noiseZero
        invProbe := by
  decide

/-- Claim C2 (code bug): the CLI can never complete with exit code 0.
The import of `uago_core` fails (it imports `_generate_mmss_explanation`,
which `symbolic_regressor` does not define), and even past that the
constructor call `UAGO3CEngine(config_path)` raises `TypeError` since
`__init__` takes no parameter; hence for an invocation with a correct
argument count and an existing readable image path, whatever the engine
run would do, the process exits with code 1, not 0. -/
theorem cli_never_exits_zero :
    uagoCoreImportOk = false ∧
    engineConstruction = Except.error "TypeError" ∧
    ∀ (fileExists : Bool) (runAndReport : Except String Unit),
      mainExitCode 2 fileExists runAndReport = 1 := by
  refine ⟨by decide, by rfl, ?_⟩
  intro fe rr
  unfold mainExitCode
  rw [if_pos (by decide)]

theorem runLoop_inr_status (env : RunEnv) (cfg : EngineConfig) :
    ∀ (l : List ℕ) (st : LoopSt) (e : String) (st' : LoopSt),
      st.res.status = "failure" →
      runLoop env cfg l st = .inr (e, st') →
      st'.res.status = "failure" := by
  intro l st e st' hst h
  cases l with
  | nil => simp [runLoop] at h
  | cons a rest =>
      simp only [runLoop, renderCall] at h
      simp only [Sum.inr.injEq, Prod.mk.injEq] at h
      obtain ⟨-, h2⟩ := h
      rw [← h2]
      exact hst

theorem initial_error_extract {e1 e : String} {pr : RunResult}
    {ev ev1 : List EngineEvent}
    (h : (Except.error (e1, initialResult, ev1) :
        Except (String × RunResult × List EngineEvent)
          (RunResult × List EngineEvent)) = .error (e, pr, ev)) :
    pr.status = "failure" := by
  simp only [Except.error.injEq, Prod.mk.injEq] at h
  obtain ⟨-, h2, -⟩ := h
  rw [← h2]
  rfl

theorem singleCyclePhase_error_status (env : RunEnv) (cfg : EngineConfig)
    (inv1 : Invariants) (f1 : String) (e : String) (pr : RunResult)
    (ev : List EngineEvent)
    (h : singleCyclePhase env cfg inv1 f1 = .error (e, pr, ev)) :
    pr.status = "failure" := by
  unfold singleCyclePhase at h
  simp only [renderCall] at h
  simp only [Except.error.injEq, Prod.mk.injEq] at h
  obtain ⟨-, h2, -⟩ := h
  rw [← h2]
  rfl

theorem runLoopPhase_error_status (env : RunEnv) (cfg : EngineConfig)
    (inv1 : Invariants) (f1 : String) (e : String) (pr : RunResult)
    (ev : List EngineEvent)
    (h : runLoopPhase env cfg inv1 f1 = .error (e, pr, ev)) :
    pr.status = "failure" := by
  unfold runLoopPhase at h
  rcases hL : runLoop env cfg (List.range' 2 (cfg.maxCycles - 1).toNat)
      (initLoopSt env inv1 f1) with st | est <;> simp only [hL] at h
  · split at h <;> exact Except.noConfusion h
  · obtain ⟨e1, st2⟩ := est
    simp only [Except.error.injEq, Prod.mk.injEq] at h
    obtain ⟨-, h2, -⟩ := h
    rw [← h2]
    exact runLoop_inr_status env cfg _ _ _ _ rfl hL

theorem runBody_error_status (env : RunEnv) (e : String) (pr : RunResult)
    (ev : List EngineEvent)
    (h : runBody env = .error (e, pr, ev)) : pr.status = "failure" := by
  unfold runBody at h
  rcases hc : env.loadConfig with e1 | cfg <;> simp only [hc] at h
  · exact initial_error_extract h
  rcases hd : env.setupDirs with e1 | u <;> simp only [hd] at h
  · exact initial_error_extract h
  rcases hi : env.imageLoad with e1 | u2 <;> simp only [hi] at h
  · exact initial_error_extract h
  rcases hm : env.measure1 with e1 | inv1 <;> simp only [hm] at h
  · exact initial_error_extract h
  rcases hg : env.genFormula1 with e1 | f1 <;> simp only [hg] at h
  · exact initial_error_extract h
  by_cases hmax : cfg.maxCycles = 1
  · rw [if_pos hmax] at h
    exact singleCyclePhase_error_status env cfg inv1 f1 e pr ev h
  · rw [if_neg hmax] at h
    exact runLoopPhase_error_status env cfg inv1 f1 e pr ev h

/-- Claim C4: `run` never propagates an exception: the model is a total
function of the collaborator behavior, and whenever a step inside the
`try` block raises (`runBody` yields `.error`), the returned result has
status "failure" and carries the raised message in its `error` field. -/
theorem run_catches_all_exceptions (env : RunEnv) (e : String)
    (pr : RunResult) (ev : List EngineEvent)
    (h : runBody env = .error (e, pr, ev)) :
    (runModel env).1.status = "failure" ∧
    (runModel env).1.error = some e := by
  have hst := runBody_error_status env e pr ev h
  unfold runModel
  rw [h]
  exact ⟨hst, rfl⟩

/-- Witness for C4: a behavior whose configuration load raises "boom"
yields a failure result recording "boom". -/
theorem run_catches_all_exceptions_witness :
    (runModel envFailing).1.status = "failure" ∧
    (runModel envFailing).1.error = some "boom" :=
  run_catches_all_exceptions envFailing "boom" initialResult [] rfl

/-- Claim C3 (code bug): with `max_cycles = 1` and a successful
Discovery, `run` does not terminate with status success, attempts 1 and
no rendering as claimed: the branch of lines 138-160 calls the renderer
for a final visualization, `generate_jsx_visualization` rejects the
`mmss_explanation`/`config` keyword arguments, so the call raises
`TypeError`, the top-level handler records it, and `run` returns status
failure with no formula and attempts 0 after performing exactly one
render call (and no capture call). -/
theorem run_single_cycle_renders_and_fails (env : RunEnv)
    (cfg : EngineConfig) (inv1 : Invariants) (f1 : String)
    (hcfg : env.loadConfig = .ok cfg) (hmax : cfg.maxCycles = 1)
    (hdirs : env.setupDirs = .ok ()) (himg : env.imageLoad = .ok ())
    (hm : env.measure1 = .ok inv1) (hg : env.genFormula1 = .ok f1) :
    (runModel env).1.status = "failure" ∧
    (runModel env).1.formula = none ∧
    (runModel env).1.attempts = 0 ∧
    (runModel env).1.error = some renderTypeErrorMsg ∧
    (runModel env).2 = [EngineEvent.render] := by
  unfold runModel runBody singleCyclePhase
  simp only [hcfg, hdirs, himg, hm, hg]
  rw [if_pos hmax]
  simp only [renderCall]
  refine ⟨?_, ?_, ?_, ?_, ?_⟩ <;> trivial

/-- Witness for C3's theorem at the benign single-cycle behavior: the
run fails with the renderer `TypeError` recorded and one render call
performed. -/
theorem run_single_cycle_renders_and_fails_witness :
    (runModel envSingle).1.status = "failure" ∧
    (runModel envSingle).1.formula = none ∧
    (runModel envSingle).1.attempts = 0 ∧
    (runModel envSingle).1.error = some renderTypeErrorMsg ∧
    (runModel envSingle).2 = [EngineEvent.render] :=
  run_single_cycle_renders_and_fails envSingle cfgSingle invProbe "F1"
    rfl rfl rfl rfl rfl rfl

/-- Claim C9 (amended): every exception-free execution of `run` stops at
the Discovery record.  Since both renderer callsites raise `TypeError`,
`runBody` returns `.ok` only when the configured `max_cycles` is at most
0 (neither the final-visualization branch nor a loop iteration runs);
such an execution returns status failure with exactly one history record
and `attempts = max_cycles`, so the claimed exhausted-failure equality
`history length = max_cycles` fails in every exception-free execution. -/
theorem run_history_length (env : RunEnv) (r : RunResult)
    (ev : List EngineEvent) (hok : runBody env = .ok (r, ev)) :
    r.status = "failure" ∧ r.history.length = 1 ∧
    ∃ cfg, env.loadConfig = .ok cfg ∧ cfg.maxCycles ≤ 0 ∧
      r.attempts = cfg.maxCycles ∧
      (r.history.length : ℤ) ≠ cfg.maxCycles := by
  unfold runBody at hok
  rcases hc : env.loadConfig with e1 | cfg <;> simp only [hc] at hok
  · exact Except.noConfusion hok
  rcases hd : env.setupDirs with e1 | u <;> simp only [hd] at hok
  · exact Except.noConfusion hok
  rcases hi : env.imageLoad with e1 | u2 <;> simp only [hi] at hok
  · exact Except.noConfusion hok
  rcases hm : env.measure1 with e1 | inv1 <;> simp only [hm] at hok
  · exact Except.noConfusion hok
  rcases hg : env.genFormula1 with e1 | f1 <;> simp only [hg] at hok
  · exact Except.noConfusion hok
  by_cases hmax1 : cfg.maxCycles = 1
  · rw [if_pos hmax1] at hok
    unfold singleCyclePhase at hok
    simp only [renderCall] at hok
    exact Except.noConfusion hok
  · rw [if_neg hmax1] at hok
    unfold runLoopPhase at hok
    cases htn : (cfg.maxCycles - 1).toNat with
    | succ n =>
        rw [htn, List.range'_succ] at hok
        simp only [runLoop, renderCall] at hok
        exact Except.noConfusion hok
    | zero =>
        rw [htn] at hok
        simp only [List.range', runLoop] at hok
        have hne : (initLoopSt env inv1 f1).res.status ≠ "success" := by
          intro hcon
          simp [initLoopSt, discoveryResult, initialResult] at hcon
        rw [if_pos hne] at hok
        simp only [Except.ok.injEq, Prod.mk.injEq] at hok
        obtain ⟨h2, -⟩ := hok
        subst h2
        have hle : cfg.maxCycles ≤ 0 := by
          have h1 : cfg.maxCycles - 1 ≤ 0 := Int.toNat_eq_zero.mp htn
          omega
        refine ⟨rfl, rfl, cfg, rfl, hle, rfl, ?_⟩
        show ((1:ℕ) : ℤ) ≠ cfg.maxCycles
        omega

/-- Witness for C9's amended theorem at the benign behavior with
`max_cycles = 0` configured: the exception-free run keeps status failure,
records exactly one history entry, and sets `attempts` to 0. -/
theorem run_history_length_witness :
    (runModel envZero).1.status = "failure" ∧
    (runModel envZero).1.history.length = 1 ∧
    ∃ cfg, envZero.loadConfig = .ok cfg ∧ cfg.maxCycles ≤ 0 ∧
      (runModel envZero).1.attempts = cfg.maxCycles ∧
      ((runModel envZero).1.history.length : ℤ) ≠ cfg.maxCycles :=
  run_history_length envZero (runModel envZero).1 (runModel envZero).2 rfl

/-- Claim C9 counterexample: with `max_cycles = 0` configured, the
exception-free run performs only the Discovery step, status stays
failure, yet the history has one record while `attempts = max_cycles = 0`:
the history length does not equal `max_cycles` on this exhausted-failure
path. -/
theorem run_zero_cycles_history_mismatch :
    (runModel envZero).1.status = "failure" ∧
    (runModel envZero).1.history.length = 1 ∧
    (runModel envZero).1.attempts = 0 ∧
    cfgZero.maxCycles = 0 :=
  ⟨rfl, rfl, rfl, rfl⟩

theorem cs_core (s : Finset (ℕ × ℕ)) (T I : ℕ × ℕ → ℤ) :
    ((s.card : ℤ) * (∑ c ∈ s, T c * I c) -
        (∑ c ∈ s, T c) * (∑ c ∈ s, I c)) ^ 2 ≤
      ((s.card : ℤ) * (∑ c ∈ s, T c ^ 2) - (∑ c ∈ s, T c) ^ 2) *
      ((s.card : ℤ) * (∑ c ∈ s, I c ^ 2) - (∑ c ∈ s, I c) ^ 2) := by
  rcases Finset.eq_empty_or_nonempty s with hs | hs
  · simp [hs]
  · have hn : (0 : ℤ) < (s.card : ℤ) := by
      exact_mod_cast Finset.card_pos.mpr hs
    set n : ℤ := (s.card : ℤ) with hn_def
    set ST : ℤ := ∑ c ∈ s, T c
    set SI : ℤ := ∑ c ∈ s, I c
    have hA : ∑ c ∈ s, (n * T c - ST) * (n * I c - SI) =
        n * (n * (∑ c ∈ s, T c * I c) - ST * SI) := by
      have hexp : ∀ c ∈ s, (n * T c - ST) * (n * I c - SI) =
          n ^ 2 * (T c * I c) - (n * SI) * T c - (n * ST) * I c + ST * SI :=
        fun c _ => by ring
      rw [Finset.sum_congr rfl hexp]
      rw [Finset.sum_add_distrib, Finset.sum_sub_distrib, Finset.sum_sub_distrib,
        ← Finset.mul_sum, ← Finset.mul_sum, ← Finset.mul_sum, Finset.sum_const,
        nsmul_eq_mul, ← hn_def]
      ring
    have hB : ∑ c ∈ s, (n * T c - ST) ^ 2 =
        n * (n * (∑ c ∈ s, T c ^ 2) - ST ^ 2) := by
      have hexp : ∀ c ∈ s, (n * T c - ST) ^ 2 =
          n ^ 2 * T c ^ 2 - (2 * n * ST) * T c + ST ^ 2 :=
        fun c _ => by ring
      rw [Finset.sum_congr rfl hexp]
      rw [Finset.sum_add_distrib, Finset.sum_sub_distrib,
        ← Finset.mul_sum, ← Finset.mul_sum, Finset.sum_const,
        nsmul_eq_mul, ← hn_def]
      ring
    have hC : ∑ c ∈ s, (n * I c - SI) ^ 2 =
        n * (n * (∑ c ∈ s, I c ^ 2) - SI ^ 2) := by
      have hexp : ∀ c ∈ s, (n * I c - SI) ^ 2 =
          n ^ 2 * I c ^ 2 - (2 * n * SI) * I c + SI ^ 2 :=
        fun c _ => by ring
      rw [Finset.sum_congr rfl hexp]
      rw [Finset.sum_add_distrib, Finset.sum_sub_distrib,
        ← Finset.mul_sum, ← Finset.mul_sum, Finset.sum_const,
        nsmul_eq_mul, ← hn_def]
      ring
    have hCS := Finset.sum_mul_sq_le_sq_mul_sq s (fun c => n * T c - ST)
      (fun c => n * I c - SI)
    rw [hA, hB, hC] at hCS
    nlinarith [hCS, hn, sq_nonneg n]

theorem windowSum_eq_product (img : Img) (th tw y x : ℕ) :
    windowSum img th tw y x =
      ∑ c ∈ Finset.range th ×ˢ Finset.range tw, img.pix (y + c.1) (x + c.2) := by
  rw [Finset.sum_product]
  rfl

theorem windowSqSum_eq_product (img : Img) (th tw y x : ℕ) :
    windowSqSum img th tw y x =
      ∑ c ∈ Finset.range th ×ˢ Finset.range tw, (img.pix (y + c.1) (x + c.2)) ^ 2 := by
  rw [Finset.sum_product]
  rfl

theorem windowProdSum_eq_product (img tpl : Img) (th tw y x : ℕ) :
    windowProdSum img tpl th tw y x =
      ∑ c ∈ Finset.range th ×ˢ Finset.range tw,
        tpl.pix c.1 c.2 * img.pix (y + c.1) (x + c.2) := by
  rw [Finset.sum_product]
  rfl

theorem ccNum_sq_le (img tpl : Img) (th tw y x : ℕ) :
    (ccNum img tpl th tw y x) ^ 2 ≤
      tplVar tpl th tw * winVar img th tw y x := by
  have hcard : ((Finset.range th ×ˢ Finset.range tw).card : ℤ) = ((th * tw : ℕ) : ℤ) := by
    simp [Finset.card_product]
  have h := cs_core (Finset.range th ×ˢ Finset.range tw)
    (fun c => tpl.pix c.1 c.2) (fun c => img.pix (y + c.1) (x + c.2))
  rw [hcard] at h
  have hT : windowSum tpl th tw 0 0 =
      ∑ c ∈ Finset.range th ×ˢ Finset.range tw, tpl.pix c.1 c.2 := by
    rw [windowSum_eq_product]
    exact Finset.sum_congr rfl (fun c _ => by rw [Nat.zero_add, Nat.zero_add])
  have hT2 : windowSqSum tpl th tw 0 0 =
      ∑ c ∈ Finset.range th ×ˢ Finset.range tw, (tpl.pix c.1 c.2) ^ 2 := by
    rw [windowSqSum_eq_product]
    exact Finset.sum_congr rfl (fun c _ => by rw [Nat.zero_add, Nat.zero_add])
  unfold ccNum tplVar winVar
  rw [hT, hT2, windowSum_eq_product, windowSqSum_eq_product, windowProdSum_eq_product]
  exact h

theorem tplVar_nonneg (tpl : Img) (th tw : ℕ) : 0 ≤ tplVar tpl th tw := by
  have hcard : ((Finset.range th ×ˢ Finset.range tw).card : ℤ) = ((th * tw : ℕ) : ℤ) := by
    simp [Finset.card_product]
  have h := Finset.sum_mul_sq_le_sq_mul_sq (Finset.range th ×ˢ Finset.range tw)
    (fun c => tpl.pix c.1 c.2) (fun _ => (1 : ℤ))
  simp only [mul_one, one_pow, Finset.sum_const, nsmul_eq_mul] at h
  have hT : windowSum tpl th tw 0 0 =
      ∑ c ∈ Finset.range th ×ˢ Finset.range tw, tpl.pix c.1 c.2 := by
    rw [windowSum_eq_product]
    exact Finset.sum_congr rfl (fun c _ => by rw [Nat.zero_add, Nat.zero_add])
  have hT2 : windowSqSum tpl th tw 0 0 =
      ∑ c ∈ Finset.range th ×ˢ Finset.range tw, (tpl.pix c.1 c.2) ^ 2 := by
    rw [windowSqSum_eq_product]
    exact Finset.sum_congr rfl (fun c _ => by rw [Nat.zero_add, Nat.zero_add])
  unfold tplVar
  rw [hT, hT2]
  rw [← hcard]
  linarith [h]

theorem winVar_nonneg (img : Img) (th tw y x : ℕ) : 0 ≤ winVar img th tw y x := by
  have hcard : ((Finset.range th ×ˢ Finset.range tw).card : ℤ) = ((th * tw : ℕ) : ℤ) := by
    simp [Finset.card_product]
  have h := Finset.sum_mul_sq_le_sq_mul_sq (Finset.range th ×ˢ Finset.range tw)
    (fun c => img.pix (y + c.1) (x + c.2)) (fun _ => (1 : ℤ))
  simp only [mul_one, one_pow, Finset.sum_const, nsmul_eq_mul] at h
  unfold winVar
  rw [windowSum_eq_product, windowSqSum_eq_product]
  rw [← hcard]
  linarith [h]

theorem ccoeffNormed_abs_le_one (img tpl : Img) (th tw y x : ℕ) :
    |ccoeffNormed img tpl th tw y x| ≤ 1 := by
  unfold ccoeffNormed
  have hVT := tplVar_nonneg tpl th tw
  have hVI := winVar_nonneg img th tw y x
  have hD0 : (0:ℝ) ≤ (tplVar tpl th tw : ℝ) * (winVar img th tw y x : ℝ) := by
    have : (0:ℝ) ≤ (tplVar tpl th tw : ℝ) := by exact_mod_cast hVT
    have h2 : (0:ℝ) ≤ (winVar img th tw y x : ℝ) := by exact_mod_cast hVI
    exact mul_nonneg this h2
  have hCS : ((ccNum img tpl th tw y x : ℝ)) ^ 2 ≤
      (tplVar tpl th tw : ℝ) * (winVar img th tw y x : ℝ) := by
    exact_mod_cast ccNum_sq_le img tpl th tw y x
  rcases eq_or_lt_of_le hD0 with hD | hD
  · have hC : (ccNum img tpl th tw y x : ℝ) = 0 := by nlinarith [sq_nonneg ((ccNum img tpl th tw y x : ℝ))]
    rw [hC]
    simp
  · have hsq : 0 < Real.sqrt ((tplVar tpl th tw : ℝ) * (winVar img th tw y x : ℝ)) :=
      Real.sqrt_pos.mpr hD
    rw [abs_div, abs_of_nonneg (Real.sqrt_nonneg _), div_le_one hsq]
    have habs : |(ccNum img tpl th tw y x : ℝ)| =
        Real.sqrt (((ccNum img tpl th tw y x : ℝ)) ^ 2) :=
      (Real.sqrt_sq_eq_abs _).symm
    rw [habs]
    exact Real.sqrt_le_sqrt hCS

/-- Claim C5 (amended): for every binary image, the repetition score is a
finite real in the closed interval [-1, 1]: images smaller than 20 pixels
in either dimension score 0, and otherwise the score is a mean of
TM_CCOEFF_NORMED correlation values, each of absolute value at most 1
(degenerate zero-variance correlations counting as 0). -/
theorem detectRepetition_in_unit_interval (img : Img) :
    -1 ≤ detectRepetition img ∧ detectRepetition img ≤ 1 := by
  unfold detectRepetition
  split
  · norm_num
  · set RH := img.height - img.height / 4 + 1 with hRH
    set RW := img.width - img.width / 4 + 1 with hRW
    have hcount : (0:ℝ) < ((RH * RW : ℕ) : ℝ) := by
      have h1 : 0 < RH := by omega
      have h2 : 0 < RW := by omega
      exact_mod_cast Nat.mul_pos h1 h2
    have hup : ∑ y ∈ Finset.range RH, ∑ x ∈ Finset.range RW,
        ccoeffNormed img (repetitionTemplate img)
          (img.height / 4) (img.width / 4) y x ≤ ((RH * RW : ℕ) : ℝ) := by
      calc ∑ y ∈ Finset.range RH, ∑ x ∈ Finset.range RW,
            ccoeffNormed img (repetitionTemplate img)
              (img.height / 4) (img.width / 4) y x
          ≤ ∑ y ∈ Finset.range RH, ∑ x ∈ Finset.range RW, (1:ℝ) := by
            refine Finset.sum_le_sum (fun y _ => Finset.sum_le_sum (fun x _ => ?_))
            exact (abs_le.mp (ccoeffNormed_abs_le_one img (repetitionTemplate img)
              (img.height / 4) (img.width / 4) y x)).2
        _ = ((RH * RW : ℕ) : ℝ) := by
            simp [Finset.sum_const, Finset.card_range, mul_comm]
    have hlow : -((RH * RW : ℕ) : ℝ) ≤ ∑ y ∈ Finset.range RH, ∑ x ∈ Finset.range RW,
        ccoeffNormed img (repetitionTemplate img)
          (img.height / 4) (img.width / 4) y x := by
      calc -((RH * RW : ℕ) : ℝ)
          = ∑ y ∈ Finset.range RH, ∑ x ∈ Finset.range RW, (-1 : ℝ) := by
            simp [Finset.sum_const, Finset.card_range, mul_comm]
        _ ≤ ∑ y ∈ Finset.range RH, ∑ x ∈ Finset.range RW,
            ccoeffNormed img (repetitionTemplate img)
              (img.height / 4) (img.width / 4) y x := by
            refine Finset.sum_le_sum (fun y _ => Finset.sum_le_sum (fun x _ => ?_))
            exact (abs_le.mp (ccoeffNormed_abs_le_one img (repetitionTemplate img)
              (img.height / 4) (img.width / 4) y x)).1
    constructor
    · rw [le_div_iff₀ hcount]
      linarith [hlow]
    · rw [div_le_one hcount]
      exact hup

/-- Claim C5 counterexample: at the 20 x 20 period-4 vertical-stripe
binary image, `_detect_repetition` returns a negative value
((4 - 2 sqrt 6)/16, about -0.056), so the repetition score is not in
[0, 1]. -/
theorem detectRepetition_stripes_negative : detectRepetition stripesImg < 0 := by
  have hh : stripesImg.height = 20 := by decide
  have hw : stripesImg.width = 20 := by decide
  have htpl : tplVar (repetitionTemplate stripesImg) 5 5 = 9753750 := by decide
  have hkey : ∀ y < 16, ∀ x < 16,
      ccNum stripesImg (repetitionTemplate stripesImg) 5 5 y x =
        (if x % 4 = 0 then 9753750 else -3251250) ∧
      winVar stripesImg 5 5 y x = (if x % 4 = 0 then 9753750 else 6502500) := by
    decide
  have h6 : (0:ℝ) < Real.sqrt 6 := Real.sqrt_pos.mpr (by norm_num)
  have h6sq : Real.sqrt 6 * Real.sqrt 6 = 6 := Real.mul_self_sqrt (by norm_num)
  unfold detectRepetition
  rw [if_neg (by rw [hh, hw]; norm_num)]
  rw [hh, hw]
  norm_num
  have hterm : ∀ y ∈ Finset.range 16, ∀ x ∈ Finset.range 16,
      ccoeffNormed stripesImg (repetitionTemplate stripesImg) 5 5 y x =
        (if x % 4 = 0 then (1:ℝ) else -(Real.sqrt 6)⁻¹) := by
    intro y hy x hx
    obtain ⟨hcc, hwv⟩ := hkey y (Finset.mem_range.mp hy) x (Finset.mem_range.mp hx)
    unfold ccoeffNormed
    rw [hcc, hwv, htpl]
    by_cases hx4 : x % 4 = 0
    · rw [if_pos hx4, if_pos hx4, if_pos hx4]
      push_cast
      rw [Real.sqrt_mul_self (by norm_num : (0:ℝ) ≤ 9753750)]
      norm_num
    · rw [if_neg hx4, if_neg hx4, if_neg hx4]
      push_cast
      have h1 : (9753750 : ℝ) * 6502500 = 3251250 ^ 2 * 6 := by norm_num
      rw [h1, Real.sqrt_mul (by positivity) 6,
        Real.sqrt_sq (by norm_num : (0:ℝ) ≤ 3251250), neg_div,
        div_mul_eq_div_div, div_self (by norm_num : (3251250:ℝ) ≠ 0), one_div]
  rw [Finset.sum_congr rfl (fun y hy => Finset.sum_congr rfl (fun x hx => hterm y hy x hx))]
  have hinner : ∑ x ∈ Finset.range 16, (if x % 4 = 0 then (1:ℝ) else -(Real.sqrt 6)⁻¹) =
      4 - 12 * (Real.sqrt 6)⁻¹ := by
    rw [Finset.sum_ite, Finset.sum_const, Finset.sum_const]
    have c1 : (Finset.filter (fun x => x % 4 = 0) (Finset.range 16)).card = 4 := by decide
    have c2 : (Finset.filter (fun x => ¬ x % 4 = 0) (Finset.range 16)).card = 12 := by decide
    rw [c1, c2]
    simp only [nsmul_eq_mul]
    push_cast
    ring
  rw [Finset.sum_congr rfl (fun y _ => hinner), Finset.sum_const, Finset.card_range,
    nsmul_eq_mul]
  have hinv : (Real.sqrt 6)⁻¹ = Real.sqrt 6 / 6 := by
    field_simp
  rw [hinv]
  have hgt : (2:ℝ) < Real.sqrt 6 := by nlinarith [h6, h6sq]
  apply div_neg_of_neg_of_pos
  · nlinarith [hgt]
  · norm_num

theorem boxCount_eq_idx (img : Img) (s : ℕ) (hs : 0 < s) :
    boxCount img s = (boxIdxSet img s).card := by
  unfold boxCount boxIdxSet
  apply Finset.card_nbij' (fun b => (b.1 / s, b.2 / s)) (fun u => (u.1 * s, u.2 * s))
  · intro b hb
    simp only [Finset.mem_filter, Finset.mem_product, Finset.mem_range] at hb ⊢
    obtain ⟨⟨hbh, hbw⟩, hmod1, hmod2, hany⟩ := hb
    have h1 : b.1 / s * s = b.1 := Nat.div_mul_cancel (Nat.dvd_of_mod_eq_zero hmod1)
    have h2 : b.2 / s * s = b.2 := Nat.div_mul_cancel (Nat.dvd_of_mod_eq_zero hmod2)
    refine ⟨⟨lt_of_le_of_lt (Nat.div_le_self _ _) hbh,
      lt_of_le_of_lt (Nat.div_le_self _ _) hbw⟩, ?_⟩
    rw [h1, h2]
    exact hany
  · intro u hu
    simp only [Finset.mem_filter, Finset.mem_product, Finset.mem_range] at hu ⊢
    obtain ⟨-, hany⟩ := hu
    obtain ⟨p, hp, hih, hiw, hpix⟩ := hany
    refine ⟨⟨lt_of_le_of_lt (Nat.le_add_right _ _) hih,
      lt_of_le_of_lt (Nat.le_add_right _ _) hiw⟩,
      Nat.mul_mod_left _ _, Nat.mul_mod_left _ _, ?_⟩
    exact ⟨p, hp, hih, hiw, hpix⟩
  · intro b hb
    simp only [Finset.mem_filter, Finset.mem_product, Finset.mem_range] at hb
    obtain ⟨-, hmod1, hmod2, -⟩ := hb
    have h1 : b.1 / s * s = b.1 := Nat.div_mul_cancel (Nat.dvd_of_mod_eq_zero hmod1)
    have h2 : b.2 / s * s = b.2 := Nat.div_mul_cancel (Nat.dvd_of_mod_eq_zero hmod2)
    simp [h1, h2]
  · intro u hu
    simp [Nat.mul_div_cancel _ hs]

theorem boxCount_pos (img : Img) (s : ℕ) (hs : 0 < s) (hfg : fgPresent img) :
    0 < boxCount img s := by
  obtain ⟨p, hp, hpix⟩ := hfg
  simp only [Finset.mem_product, Finset.mem_range] at hp
  apply Finset.card_pos.mpr
  refine ⟨(p.1 / s * s, p.2 / s * s), ?_⟩
  simp only [Finset.mem_filter, Finset.mem_product, Finset.mem_range]
  have hd1 : p.1 / s * s + p.1 % s = p.1 := by
    rw [mul_comm]
    exact Nat.div_add_mod p.1 s
  have hd2 : p.2 / s * s + p.2 % s = p.2 := by
    rw [mul_comm]
    exact Nat.div_add_mod p.2 s
  refine ⟨⟨lt_of_le_of_lt (Nat.div_mul_le_self _ _) hp.1,
    lt_of_le_of_lt (Nat.div_mul_le_self _ _) hp.2⟩,
    Nat.mul_mod_left _ _, Nat.mul_mod_left _ _, ?_⟩
  refine ⟨(p.1 % s, p.2 % s), ?_, ?_, ?_, ?_⟩
  · simp only [Finset.mem_product, Finset.mem_range]
    exact ⟨Nat.mod_lt _ hs, Nat.mod_lt _ hs⟩
  · rw [hd1]
    exact hp.1
  · rw [hd2]
    exact hp.2
  · rw [hd1, hd2]
    exact hpix

theorem blockAny_child_to_parent (img : Img) (s : ℕ) (_hs : 0 < s) (u v : ℕ)
    (h : blockAny img s (u * s) (v * s)) :
    blockAny img (2 * s) (u / 2 * (2 * s)) (v / 2 * (2 * s)) := by
  obtain ⟨p, hp, hih, hiw, hpix⟩ := h
  simp only [Finset.mem_product, Finset.mem_range] at hp
  have hu : u * s = u / 2 * (2 * s) + u % 2 * s := by
    have h2 := Nat.div_add_mod u 2
    calc u * s = (2 * (u / 2) + u % 2) * s := by rw [h2]
    _ = u / 2 * (2 * s) + u % 2 * s := by ring
  have hv : v * s = v / 2 * (2 * s) + v % 2 * s := by
    have h2 := Nat.div_add_mod v 2
    calc v * s = (2 * (v / 2) + v % 2) * s := by rw [h2]
    _ = v / 2 * (2 * s) + v % 2 * s := by ring
  have hum : u % 2 * s ≤ 1 * s := Nat.mul_le_mul_right s (by omega)
  have hvm : v % 2 * s ≤ 1 * s := Nat.mul_le_mul_right s (by omega)
  refine ⟨(u % 2 * s + p.1, v % 2 * s + p.2), ?_, ?_, ?_, ?_⟩
  · simp only [Finset.mem_product, Finset.mem_range]
    omega
  · have : u / 2 * (2 * s) + (u % 2 * s + p.1) = u * s + p.1 := by omega
    rw [this]
    exact hih
  · have : v / 2 * (2 * s) + (v % 2 * s + p.2) = v * s + p.2 := by omega
    rw [this]
    exact hiw
  · have e1 : u / 2 * (2 * s) + (u % 2 * s + p.1) = u * s + p.1 := by omega
    have e2 : v / 2 * (2 * s) + (v % 2 * s + p.2) = v * s + p.2 := by omega
    rw [e1, e2]
    exact hpix

theorem boxIdx_child_le_four_parent (img : Img) (s : ℕ) (hs : 0 < s) :
    (boxIdxSet img s).card ≤ 4 * (boxIdxSet img (2 * s)).card := by
  apply Finset.card_le_mul_card_image_of_maps_to
    (f := fun u => (u.1 / 2, u.2 / 2)) (t := boxIdxSet img (2 * s))
  · intro u hu
    simp only [boxIdxSet, Finset.mem_filter, Finset.mem_product,
      Finset.mem_range] at hu ⊢
    obtain ⟨⟨huh, huw⟩, hany⟩ := hu
    exact ⟨⟨lt_of_le_of_lt (Nat.div_le_self _ _) huh,
      lt_of_le_of_lt (Nat.div_le_self _ _) huw⟩,
      blockAny_child_to_parent img s hs u.1 u.2 hany⟩
  · intro b _
    have hsub : {a ∈ boxIdxSet img s | (a.1 / 2, a.2 / 2) = b} ⊆
        ({(2 * b.1, 2 * b.2), (2 * b.1 + 1, 2 * b.2),
          (2 * b.1, 2 * b.2 + 1), (2 * b.1 + 1, 2 * b.2 + 1)} :
          Finset (ℕ × ℕ)) := by
      intro a ha
      simp only [Finset.mem_filter] at ha
      obtain ⟨-, hab⟩ := ha
      have h1 : a.1 / 2 = b.1 := congrArg Prod.fst hab
      have h2 : a.2 / 2 = b.2 := congrArg Prod.snd hab
      have ha1 : a.1 = 2 * b.1 ∨ a.1 = 2 * b.1 + 1 := by omega
      have ha2 : a.2 = 2 * b.2 ∨ a.2 = 2 * b.2 + 1 := by omega
      simp only [Finset.mem_insert, Finset.mem_singleton, Prod.ext_iff]
      rcases ha1 with h | h <;> rcases ha2 with h' | h' <;> simp [h, h']
    calc {a ∈ boxIdxSet img s | (a.1 / 2, a.2 / 2) = b}.card ≤ _ :=
        Finset.card_le_card hsub
    _ ≤ 4 := by
        apply le_trans (Finset.card_insert_le _ _)
        apply Nat.succ_le_succ
        apply le_trans (Finset.card_insert_le _ _)
        apply Nat.succ_le_succ
        apply le_trans (Finset.card_insert_le _ _)
        apply Nat.succ_le_succ
        simp

theorem div_double_recover (s a c q : ℕ) (hs : 0 < s)
    (hq : q = a * (2 * s) + c) (hc : c < 2 * s) : q / s / 2 = a := by
  have hlow : 2 * a ≤ q / s := by
    rw [Nat.le_div_iff_mul_le hs]
    calc 2 * a * s = a * (2 * s) := by ring
    _ ≤ q := by omega
  have hhigh : q / s < 2 * a + 2 := by
    rw [Nat.div_lt_iff_lt_mul hs]
    calc q = a * (2 * s) + c := hq
    _ < a * (2 * s) + 2 * s := by omega
    _ = (2 * a + 2) * s := by ring
  omega

theorem boxIdx_parent_le_child (img : Img) (s : ℕ) (hs : 0 < s) :
    (boxIdxSet img (2 * s)).card ≤ (boxIdxSet img s).card := by
  have hsub : boxIdxSet img (2 * s) ⊆
      (boxIdxSet img s).image (fun u => (u.1 / 2, u.2 / 2)) := by
    intro w hw
    simp only [boxIdxSet, Finset.mem_filter, Finset.mem_product,
      Finset.mem_range] at hw
    obtain ⟨⟨hwh, hww⟩, hany⟩ := hw
    obtain ⟨p, hp, hih, hiw, hpix⟩ := hany
    simp only [Finset.mem_product, Finset.mem_range] at hp
    rw [Finset.mem_image]
    have hd1 : (w.1 * (2 * s) + p.1) / s * s + (w.1 * (2 * s) + p.1) % s =
        w.1 * (2 * s) + p.1 := by
      rw [mul_comm]
      exact Nat.div_add_mod _ s
    have hd2 : (w.2 * (2 * s) + p.2) / s * s + (w.2 * (2 * s) + p.2) % s =
        w.2 * (2 * s) + p.2 := by
      rw [mul_comm]
      exact Nat.div_add_mod _ s
    refine ⟨((w.1 * (2 * s) + p.1) / s, (w.2 * (2 * s) + p.2) / s), ?_, ?_⟩
    · simp only [boxIdxSet, Finset.mem_filter, Finset.mem_product,
        Finset.mem_range]
      refine ⟨⟨lt_of_le_of_lt (Nat.div_le_self _ _) hih,
        lt_of_le_of_lt (Nat.div_le_self _ _) hiw⟩, ?_⟩
      refine ⟨((w.1 * (2 * s) + p.1) % s, (w.2 * (2 * s) + p.2) % s), ?_, ?_, ?_, ?_⟩
      · simp only [Finset.mem_product, Finset.mem_range]
        exact ⟨Nat.mod_lt _ hs, Nat.mod_lt _ hs⟩
      · rw [hd1]
        exact hih
      · rw [hd2]
        exact hiw
      · rw [hd1, hd2]
        exact hpix
    · have e1 : (w.1 * (2 * s) + p.1) / s / 2 = w.1 :=
        div_double_recover s w.1 p.1 _ hs rfl hp.1
      have e2 : (w.2 * (2 * s) + p.2) / s / 2 = w.2 :=
        div_double_recover s w.2 p.2 _ hs rfl hp.2
      simp [e1, e2]
  calc (boxIdxSet img (2 * s)).card
      ≤ ((boxIdxSet img s).image (fun u => (u.1 / 2, u.2 / 2))).card :=
        Finset.card_le_card hsub
  _ ≤ (boxIdxSet img s).card := Finset.card_image_le

theorem boxCount_two_le (img : Img) (k : ℕ) :
    boxCount img (2 ^ (k + 1)) ≤ boxCount img (2 ^ k) := by
  have hs : 0 < 2 ^ k := Nat.pos_pow_of_pos k (by norm_num)
  have h2 : (2 : ℕ) ^ (k + 1) = 2 * 2 ^ k := by ring
  rw [h2, boxCount_eq_idx img (2 * 2 ^ k) (by positivity),
    boxCount_eq_idx img (2 ^ k) hs]
  exact boxIdx_parent_le_child img (2 ^ k) hs

theorem boxCount_le_four (img : Img) (k : ℕ) :
    boxCount img (2 ^ k) ≤ 4 * boxCount img (2 ^ (k + 1)) := by
  have hs : 0 < 2 ^ k := Nat.pos_pow_of_pos k (by norm_num)
  have h2 : (2 : ℕ) ^ (k + 1) = 2 * 2 ^ k := by ring
  rw [h2, boxCount_eq_idx img (2 ^ k) hs,
    boxCount_eq_idx img (2 * 2 ^ k) (by positivity)]
  exact boxIdx_child_le_four_parent img (2 ^ k) hs

theorem boxCount_antitone_pow (img : Img) :
    ∀ i j : ℕ, i ≤ j → boxCount img (2 ^ j) ≤ boxCount img (2 ^ i) := by
  intro i j hij
  induction j with
  | zero =>
      have : i = 0 := Nat.le_zero.mp hij
      rw [this]
  | succ n ihn =>
      rcases Nat.lt_or_ge i (n + 1) with h | h
      · exact le_trans (boxCount_two_le img n) (ihn (by omega))
      · have : i = n + 1 := by omega
        rw [this]

theorem boxCount_le_pow_four (img : Img) :
    ∀ i j : ℕ, i ≤ j →
      boxCount img (2 ^ i) ≤ 4 ^ (j - i) * boxCount img (2 ^ j) := by
  intro i j hij
  induction j with
  | zero =>
      have : i = 0 := Nat.le_zero.mp hij
      rw [this]
      simp
  | succ n ihn =>
      rcases Nat.lt_or_ge i (n + 1) with h | h
      · have step := boxCount_le_four img n
        have ih := ihn (by omega)
        calc boxCount img (2 ^ i) ≤ 4 ^ (n - i) * boxCount img (2 ^ n) := ih
        _ ≤ 4 ^ (n - i) * (4 * boxCount img (2 ^ (n + 1))) :=
            Nat.mul_le_mul_left _ step
        _ = 4 ^ (n + 1 - i) * boxCount img (2 ^ (n + 1)) := by
            have : n + 1 - i = (n - i) + 1 := by omega
            rw [this, pow_succ]
            ring
      · have : i = n + 1 := by omega
        rw [this]
        simp

theorem boxCount_of_no_fg (img : Img) (himg : ¬ fgPresent img) (s : ℕ) :
    boxCount img s = 0 := by
  unfold boxCount
  rw [Finset.card_eq_zero, Finset.filter_eq_empty_iff]
  intro b hb
  intro hcon
  obtain ⟨-, -, hany⟩ := hcon
  obtain ⟨p, hp, hih, hiw, hpix⟩ := hany
  exact himg ⟨(b.1 + p.1, b.2 + p.2), by
    simp only [Finset.mem_product, Finset.mem_range]
    exact ⟨hih, hiw⟩, hpix⟩

theorem collectPairs_of_no_fg (img : Img) (minDim : ℕ)
    (himg : ¬ fgPresent img) :
    ∀ d k acc, minDim - k = d → collectPairs img minDim k acc = acc := by
  intro d
  induction d using Nat.strong_induction_on with
  | _ d ih =>
      intro k acc hk
      rw [collectPairs]
      split
      · rename_i hcond
        rw [if_neg (by rw [boxCount_of_no_fg img himg]; omega)]
        have hkd : k < 2 ^ k := Nat.lt_two_pow k
        have hklt : k < minDim := lt_of_lt_of_le hkd hcond.1
        exact ih (minDim - (k + 1)) (by omega) (k + 1) acc rfl
      · rfl

theorem collectPairs_of_fg (img : Img) (minDim : ℕ) (hfg : fgPresent img) :
    ∀ d k, minDim - k = d →
      ∃ m, k ≤ m ∧
        collectPairs img minDim k
          ((List.range k).map (fun j => (2 ^ j, boxCount img (2 ^ j)))) =
        (List.range m).map (fun j => (2 ^ j, boxCount img (2 ^ j))) := by
  intro d
  induction d using Nat.strong_induction_on with
  | _ d ih =>
      intro k hk
      rw [collectPairs]
      split
      · rename_i hcond
        have hbc : 0 < boxCount img (2 ^ k) :=
          boxCount_pos img _ (Nat.pos_pow_of_pos k (by norm_num)) hfg
        rw [if_pos hbc]
        have hlen : (List.range k).map (fun j => (2 ^ j, boxCount img (2 ^ j))) ++
            [(2 ^ k, boxCount img (2 ^ k))] =
            (List.range (k + 1)).map (fun j => (2 ^ j, boxCount img (2 ^ j))) := by
          rw [List.range_succ, List.map_append]
          rfl
        rw [hlen]
        have hkd : k < 2 ^ k := Nat.lt_two_pow k
        have hklt : k < minDim := lt_of_lt_of_le hkd hcond.1
        obtain ⟨m, hm1, hm2⟩ := ih (minDim - (k + 1)) (by omega) (k + 1) rfl
        exact ⟨m, by omega, hm2⟩
      · exact ⟨k, le_refl k, rfl⟩

theorem list_range_map_sum (f : ℕ → ℝ) (n : ℕ) :
    ((List.range n).map f).sum = ∑ j ∈ Finset.range n, f j := by
  induction n with
  | zero => simp
  | succ k ih =>
      rw [List.range_succ, List.map_append, List.sum_append,
        Finset.sum_range_succ, ih]
      simp

theorem zip_map_sum (n : ℕ) : ∀ (X Y : ℕ → ℝ),
    (List.zipWith (fun a b => a * b) ((List.range n).map X)
      ((List.range n).map Y)).sum = ∑ j ∈ Finset.range n, X j * Y j := by
  induction n with
  | zero => intro X Y; simp
  | succ k ih =>
      intro X Y
      rw [List.range_succ_eq_map]
      simp only [List.map_cons, List.map_map, List.zipWith_cons_cons,
        List.sum_cons]
      rw [show (List.range k).map (X ∘ Nat.succ) =
          (List.range k).map (fun j => X (j + 1)) from rfl,
        show (List.range k).map (Y ∘ Nat.succ) =
          (List.range k).map (fun j => Y (j + 1)) from rfl]
      rw [ih (fun j => X (j + 1)) (fun j => Y (j + 1))]
      rw [Finset.sum_range_succ']
      ring

theorem pair_identity (m : ℕ) (X Y : ℕ → ℝ) :
    2 * ((m : ℝ) * (∑ j ∈ Finset.range m, X j * Y j) -
      (∑ j ∈ Finset.range m, X j) * (∑ j ∈ Finset.range m, Y j)) =
    ∑ i ∈ Finset.range m, ∑ j ∈ Finset.range m, (X i - X j) * (Y i - Y j) := by
  have hexp : ∀ i ∈ Finset.range m, ∑ j ∈ Finset.range m, (X i - X j) * (Y i - Y j) =
      ∑ j ∈ Finset.range m, (X i * Y i - X i * Y j - X j * Y i + X j * Y j) :=
    fun i _ => Finset.sum_congr rfl (fun j _ => by ring)
  rw [Finset.sum_congr rfl hexp]
  have h1 : ∑ i ∈ Finset.range m, ∑ j ∈ Finset.range m,
      (X i * Y i - X i * Y j - X j * Y i + X j * Y j) =
      ∑ i ∈ Finset.range m, ((m : ℝ) * (X i * Y i) - X i * (∑ j ∈ Finset.range m, Y j) -
        (∑ j ∈ Finset.range m, X j) * Y i + (∑ j ∈ Finset.range m, X j * Y j)) := by
    refine Finset.sum_congr rfl (fun i _ => ?_)
    rw [Finset.sum_add_distrib, Finset.sum_sub_distrib, Finset.sum_sub_distrib,
      Finset.sum_const, Finset.card_range, nsmul_eq_mul, ← Finset.mul_sum,
      ← Finset.sum_mul]
  rw [h1]
  rw [Finset.sum_add_distrib, Finset.sum_sub_distrib, Finset.sum_sub_distrib,
    Finset.sum_const, Finset.card_range, nsmul_eq_mul, ← Finset.mul_sum,
    ← Finset.sum_mul, ← Finset.mul_sum]
  ring

theorem dim_slope_bounds (img : Img) (hfg : fgPresent img) (m : ℕ) (hm : 2 ≤ m) :
    0 ≤ -(lsSlope
      (((List.range m).map (fun j => ((2 : ℕ) ^ j, boxCount img (2 ^ j)))).map
        (fun p => Real.log (p.1 : ℝ)))
      (((List.range m).map (fun j => ((2 : ℕ) ^ j, boxCount img (2 ^ j)))).map
        (fun p => Real.log (p.2 : ℝ)))) ∧
    -(lsSlope
      (((List.range m).map (fun j => ((2 : ℕ) ^ j, boxCount img (2 ^ j)))).map
        (fun p => Real.log (p.1 : ℝ)))
      (((List.range m).map (fun j => ((2 : ℕ) ^ j, boxCount img (2 ^ j)))).map
        (fun p => Real.log (p.2 : ℝ)))) ≤ 2 := by
  have hL : (0:ℝ) < Real.log 2 := Real.log_pos (by norm_num)
  set A : ℕ → ℝ := fun j => Real.log (((2 : ℕ) ^ j : ℕ) : ℝ) with hAdef
  set B : ℕ → ℝ := fun j => Real.log ((boxCount img (2 ^ j) : ℕ) : ℝ) with hBdef
  have hA : ∀ j : ℕ, A j = (j : ℝ) * Real.log 2 := by
    intro j
    simp only [hAdef]
    push_cast
    rw [Real.log_pow]
  have hcpos : ∀ j : ℕ, (0:ℝ) < (boxCount img (2 ^ j) : ℝ) := by
    intro j
    exact_mod_cast boxCount_pos img _ (Nat.pos_pow_of_pos j (by norm_num)) hfg
  have hxs : ((List.range m).map (fun j => ((2 : ℕ) ^ j, boxCount img (2 ^ j)))).map
      (fun p => Real.log (p.1 : ℝ)) = (List.range m).map A := by
    rw [List.map_map]
    rfl
  have hys : ((List.range m).map (fun j => ((2 : ℕ) ^ j, boxCount img (2 ^ j)))).map
      (fun p => Real.log (p.2 : ℝ)) = (List.range m).map B := by
    rw [List.map_map]
    rfl
  have hsq : ((List.range m).map A).map (fun v => v ^ 2) =
      (List.range m).map (fun j => A j ^ 2) := by
    rw [List.map_map]
    rfl
  have hslope : lsSlope ((List.range m).map A) ((List.range m).map B) =
      ((m : ℝ) * (∑ j ∈ Finset.range m, A j * B j) -
        (∑ j ∈ Finset.range m, A j) * (∑ j ∈ Finset.range m, B j)) /
      ((m : ℝ) * (∑ j ∈ Finset.range m, A j ^ 2) -
        (∑ j ∈ Finset.range m, A j) ^ 2) := by
    unfold lsSlope
    rw [hsq, zip_map_sum, list_range_map_sum, list_range_map_sum,
      list_range_map_sum]
    simp
  have core : ∀ i j : ℕ, i ≤ j → j < m →
      (A i - A j) * (B i - B j) ≤ 0 ∧
      -2 * ((A i - A j) * (A i - A j)) ≤ (A i - A j) * (B i - B j) := by
    intro i j hij hjm
    have hAij : A j - A i = ((j : ℝ) - (i : ℝ)) * Real.log 2 := by
      rw [hA i, hA j]
      ring
    have hij' : (i : ℝ) ≤ (j : ℝ) := by exact_mod_cast hij
    have ha : 0 ≤ A j - A i := by
      rw [hAij]
      have hd : (0:ℝ) ≤ (j : ℝ) - (i : ℝ) := by linarith
      exact mul_nonneg hd hL.le
    have hb : 0 ≤ B i - B j := by
      have hle : boxCount img (2 ^ j) ≤ boxCount img (2 ^ i) :=
        boxCount_antitone_pow img i j hij
      have : B j ≤ B i := by
        simp only [hBdef]
        exact (Real.log_le_log_iff (hcpos j) (hcpos i)).mpr (by exact_mod_cast hle)
      linarith
    have hab : B i - B j ≤ 2 * (A j - A i) := by
      have hle : (boxCount img (2 ^ i) : ℝ) ≤
          4 ^ (j - i) * (boxCount img (2 ^ j) : ℝ) := by
        have h := boxCount_le_pow_four img i j hij
        exact_mod_cast h
      have hlog : B i ≤ Real.log ((4:ℝ) ^ (j - i) * (boxCount img (2 ^ j) : ℝ)) := by
        simp only [hBdef]
        exact (Real.log_le_log_iff (hcpos i)
          (mul_pos (by positivity) (hcpos j))).mpr hle
      rw [Real.log_mul (by positivity) (hcpos j).ne.symm, Real.log_pow] at hlog
      have h4 : Real.log 4 = 2 * Real.log 2 := by
        rw [show (4:ℝ) = 2 ^ 2 by norm_num, Real.log_pow]
        norm_num
      rw [h4] at hlog
      have hsub : ((j - i : ℕ) : ℝ) = (j : ℝ) - (i : ℝ) := Nat.cast_sub hij
      rw [hsub] at hlog
      rw [hAij]
      have : B j = Real.log ((boxCount img (2 ^ j) : ℝ)) := rfl
      linarith [hlog]
    constructor
    · nlinarith [mul_nonneg ha hb]
    · nlinarith [mul_le_mul_of_nonneg_left hab ha]
  have hf1 : ∀ i ∈ Finset.range m, ∀ j ∈ Finset.range m,
      (A i - A j) * (B i - B j) ≤ 0 := by
    intro i hi j hj
    rcases le_total i j with h | h
    · exact (core i j h (Finset.mem_range.mp hj)).1
    · have := (core j i h (Finset.mem_range.mp hi)).1
      calc (A i - A j) * (B i - B j) = (A j - A i) * (B j - B i) := by ring
      _ ≤ 0 := this
  have hf2 : ∀ i ∈ Finset.range m, ∀ j ∈ Finset.range m,
      -2 * ((A i - A j) * (A i - A j)) ≤ (A i - A j) * (B i - B j) := by
    intro i hi j hj
    rcases le_total i j with h | h
    · exact (core i j h (Finset.mem_range.mp hj)).2
    · have := (core j i h (Finset.mem_range.mp hi)).2
      calc -2 * ((A i - A j) * (A i - A j))
          = -2 * ((A j - A i) * (A j - A i)) := by ring
      _ ≤ (A j - A i) * (B j - B i) := this
      _ = (A i - A j) * (B i - B j) := by ring
  have hN := pair_identity m A B
  have hD := pair_identity m A A
  have hNle : ∑ i ∈ Finset.range m, ∑ j ∈ Finset.range m,
      (A i - A j) * (B i - B j) ≤ 0 := by
    apply Finset.sum_nonpos
    intro i hi
    apply Finset.sum_nonpos
    intro j hj
    exact hf1 i hi j hj
  have hNge : -2 * (∑ i ∈ Finset.range m, ∑ j ∈ Finset.range m,
      (A i - A j) * (A i - A j)) ≤
      ∑ i ∈ Finset.range m, ∑ j ∈ Finset.range m, (A i - A j) * (B i - B j) := by
    calc -2 * (∑ i ∈ Finset.range m, ∑ j ∈ Finset.range m,
          (A i - A j) * (A i - A j))
        = ∑ i ∈ Finset.range m, ∑ j ∈ Finset.range m,
          (-2 * ((A i - A j) * (A i - A j))) := by
          rw [Finset.mul_sum]
          refine Finset.sum_congr rfl (fun i _ => ?_)
          rw [Finset.mul_sum]
    _ ≤ ∑ i ∈ Finset.range m, ∑ j ∈ Finset.range m,
          (A i - A j) * (B i - B j) := by
          refine Finset.sum_le_sum (fun i hi => Finset.sum_le_sum (fun j hj => ?_))
          exact hf2 i hi j hj
  have hDpos : 0 < ∑ i ∈ Finset.range m, ∑ j ∈ Finset.range m,
      (A i - A j) * (A i - A j) := by
    have hterm : 0 < (A 1 - A 0) * (A 1 - A 0) := by
      have : A 1 - A 0 = Real.log 2 := by
        rw [hA 0, hA 1]
        ring
      rw [this]
      exact mul_pos hL hL
    have hnn : ∀ i ∈ Finset.range m, 0 ≤ ∑ j ∈ Finset.range m,
        (A i - A j) * (A i - A j) :=
      fun i _ => Finset.sum_nonneg (fun j _ => mul_self_nonneg _)
    have h1m : 1 ∈ Finset.range m := Finset.mem_range.mpr (by omega)
    have h0m : 0 ∈ Finset.range m := Finset.mem_range.mpr (by omega)
    have hinner : (A 1 - A 0) * (A 1 - A 0) ≤ ∑ j ∈ Finset.range m,
        (A 1 - A j) * (A 1 - A j) :=
      Finset.single_le_sum (f := fun j => (A 1 - A j) * (A 1 - A j))
        (fun j _ => mul_self_nonneg _) h0m
    have houter : ∑ j ∈ Finset.range m, (A 1 - A j) * (A 1 - A j) ≤
        ∑ i ∈ Finset.range m, ∑ j ∈ Finset.range m, (A i - A j) * (A i - A j) :=
      Finset.single_le_sum
        (f := fun i => ∑ j ∈ Finset.range m, (A i - A j) * (A i - A j)) hnn h1m
    linarith
  set N : ℝ := (m : ℝ) * (∑ j ∈ Finset.range m, A j * B j) -
    (∑ j ∈ Finset.range m, A j) * (∑ j ∈ Finset.range m, B j) with hNdef
  set D : ℝ := (m : ℝ) * (∑ j ∈ Finset.range m, A j ^ 2) -
    (∑ j ∈ Finset.range m, A j) ^ 2 with hDdef
  have hDD : 2 * D = ∑ i ∈ Finset.range m, ∑ j ∈ Finset.range m,
      (A i - A j) * (A i - A j) := by
    have e1 : ∑ j ∈ Finset.range m, A j ^ 2 =
        ∑ j ∈ Finset.range m, A j * A j :=
      Finset.sum_congr rfl (fun j _ => pow_two (A j))
    have e2 : (∑ j ∈ Finset.range m, A j) ^ 2 =
        (∑ j ∈ Finset.range m, A j) * (∑ j ∈ Finset.range m, A j) :=
      pow_two _
    rw [hDdef, e1, e2]
    exact hD
  have hNN : 2 * N = ∑ i ∈ Finset.range m, ∑ j ∈ Finset.range m,
      (A i - A j) * (B i - B j) := hN
  have hDpos2 : 0 < D := by linarith
  have hNle2 : N ≤ 0 := by linarith
  have hNge2 : -2 * D ≤ N := by linarith
  rw [hxs, hys, hslope]
  constructor
  · have hq : N / D ≤ 0 := by
      rw [div_le_iff₀ hDpos2]
      linarith
    linarith [hq]
  · have hq : -2 ≤ N / D := by
      rw [le_div_iff₀ hDpos2]
      linarith
    linarith [hq]

/-- Claim C6: for every image, `_box_counting_dimension` returns a finite
real in [0, 3]; when fewer than two (size, count) pairs are collected the
fixed default 2.0 is returned; the estimator is a total function of the
image (no exceptional exit exists in the model). -/
theorem boxCountingDimension_bounds (img : Img) :
    0 ≤ boxCountingDimension img ∧ boxCountingDimension img ≤ 3 ∧
    ((collectPairs img (min img.height img.width) 0 []).length < 2 →
      boxCountingDimension img = 2) := by
  by_cases hlen : (collectPairs img (min img.height img.width) 0 []).length < 2
  · unfold boxCountingDimension
    rw [if_pos hlen]
    exact ⟨by norm_num, by norm_num, fun _ => rfl⟩
  · by_cases hfg : fgPresent img
    · obtain ⟨m, -, hP⟩ := collectPairs_of_fg img (min img.height img.width)
        hfg (min img.height img.width) 0 (by omega)
      have hP0 : collectPairs img (min img.height img.width) 0 [] =
          (List.range m).map (fun j => ((2:ℕ) ^ j, boxCount img (2 ^ j))) := by
        simpa using hP
      have hmlen : 2 ≤ m := by
        have h2 := hlen
        rw [hP0] at h2
        simp only [List.length_map, List.length_range] at h2
        omega
      have hb := dim_slope_bounds img hfg m hmlen
      refine ⟨?_, ?_, fun h => absurd h hlen⟩
      · unfold boxCountingDimension
        rw [if_neg hlen, hP0]
        exact hb.1
      · unfold boxCountingDimension
        rw [if_neg hlen, hP0]
        exact le_trans hb.2 (by norm_num)
    · exfalso
      have hnil := collectPairs_of_no_fg img (min img.height img.width) hfg
        (min img.height img.width) 0 [] (by omega)
      rw [hnil] at hlen
      simp at hlen
